import Mathlib

set_option maxHeartbeats 1000000

/-
Shallow embedding of the piece-interaction engine of the puzzling repository
(src/game/puzzleBoard.ts, src/game/piece.ts and src/utils/touch.ts; the
piece class is staged inside src/src/utils/errorHandler.ts, and its first
variant is followed).  Positions and camera
values are exact rationals.  Two standard idealizations are used:
the floating-point trigonometry of TouchHandler.rotateVector is specialized
to exact quarter-turn rotation (the engine only ever stores rotations that
are multiples of 90 degrees), and squared Euclidean distances stand in for
Math.hypot (for nonnegative d and t, d < t holds exactly when d^2 < t^2, so
every strict comparison of distances in the source is mirrored by the same
comparison of squared distances).  JavaScript objects mutated in place are
modelled as id-keyed updates of the piece list; every board state of
interest carries pairwise distinct piece ids, which the theorems assume
explicitly where needed.
-/

/-- A 2-d point or vector, as the {x, y} object literals of the source. -/
structure Pt where
  x : ℚ
  y : ℚ
deriving DecidableEq

/-- One of the four mating edges of a piece (src/game/piece.ts data model). -/
inductive PieceEdge
  | top
  | right
  | bottom
  | left
deriving DecidableEq

/-- Tab-or-blank polarity of a connection slot. -/
inductive TabKind
  | tab
  | blank
deriving DecidableEq

/-- PieceConnection from src/game/piece.ts (the piece class is staged inside
src/src/utils/errorHandler.ts): a connection slot names its edge, a
tab-or-blank polarity (none meaning a straight edge), and optionally the
mating piece id and the mating edge. -/
structure PieceConnection where
  edge : PieceEdge
  type : Option TabKind
  matingPieceId : Option ℕ
  matingEdge : Option PieceEdge
deriving DecidableEq

/-- The PuzzlePiece fields of the class in src/game/piece.ts (staged inside
src/src/utils/errorHandler.ts), as used by puzzleBoard.ts and touch.ts.
The connections array is iterated with a null-entry guard by
SnapDetector.getConnection, hence the Option.  The JavaScript Set
connectedPieces is an insertion-ordered collection of distinct ids and is
modelled as a duplicate-free list.  groupId and the cached image data are
never read by the embedded operations and are omitted. -/
structure PuzzlePiece where
  id : ℕ
  x : ℚ
  y : ℚ
  width : ℚ
  height : ℚ
  rotation : ℕ
  faceUp : Bool
  connections : List (Option PieceConnection)
  isDragging : Bool
  dragOffset : Pt
  isLocked : Bool
  originalPosition : Pt
  connectedPieces : List ℕ
deriving DecidableEq

/-- APP_CONFIG.SNAPPING.DISTANCE from src/config/appConfig.ts. -/
def SNAP_DISTANCE : ℚ := 30

/-- APP_CONFIG.SNAPPING.DRAG_THRESHOLD from src/config/appConfig.ts. -/
def DRAG_THRESHOLD : ℚ := 5

/-- PuzzleBoard.MIN_SCALE from src/game/puzzleBoard.ts. -/
def MIN_SCALE : ℚ := 1 / 4

/-- PuzzleBoard.MAX_SCALE from src/game/puzzleBoard.ts. -/
def MAX_SCALE : ℚ := 4

/-- TouchHandler.rotateVector from src/utils/touch.ts, idealized to exact
quarter-turn trigonometry: the cosine and sine of 0, 90, 180 and 270 degrees
are 0, 1 or -1, so the float formula (x cos - y sin, x sin + y cos) reduces
to the four exact cases below.  The engine only stores rotations that are
multiples of 90 degrees; other angles fall back to the identity. -/
def rotateVector (x y : ℚ) (degrees : ℕ) : Pt :=
  if degrees % 360 = 0 then ⟨x, y⟩
  else if degrees % 360 = 90 then ⟨-y, x⟩
  else if degrees % 360 = 180 then ⟨-x, -y⟩
  else if degrees % 360 = 270 then ⟨y, -x⟩
  else ⟨x, y⟩

/-- SnapDetector.getConnection from src/utils/touch.ts: the first non-null
connection slot of piece1 whose type is present and whose matingPieceId is
the id of piece2 (an absent matingPieceId never equals an id, as in the
strict comparison of the source). -/
def getConnection (piece1 piece2 : PuzzlePiece) : Option PieceConnection :=
  (piece1.connections.filterMap id).find?
    (fun c => c.type.isSome && c.matingPieceId == some piece2.id)

/-- The result record of SnapDetector.findSnapTarget; distSq is the squared
Euclidean distance that the source stores as distance. -/
structure SnapResult where
  targetPiece : PuzzlePiece
  snapX : ℚ
  snapY : ℚ
  connection : PieceConnection
  distSq : ℚ
deriving DecidableEq

/-- The loop body of SnapDetector.findSnapTarget for one candidate piece:
the guard chain (same id, already connected, face-down, rotation mismatch,
no declared connection) followed by the expected-center computation and the
threshold test.  Returns the candidate record when the piece is accepted. -/
def snapCandidate (draggedPiece : PuzzlePiece) (draggedX draggedY : ℚ)
    (piece : PuzzlePiece) : Option SnapResult :=
  if piece.id = draggedPiece.id then none
  else if piece.id ∈ draggedPiece.connectedPieces then none
  else if piece.faceUp = false then none
  else if piece.rotation ≠ draggedPiece.rotation then none
  else
    match getConnection draggedPiece piece with
    | none => none
    | some connection =>
      let draggedCenterX := draggedX + draggedPiece.width / 2
      let draggedCenterY := draggedY + draggedPiece.height / 2
      let targetCenterX := piece.x + piece.width / 2
      let targetCenterY := piece.y + piece.height / 2
      let originalDeltaX := (draggedPiece.originalPosition.x + draggedPiece.width / 2)
        - (piece.originalPosition.x + piece.width / 2)
      let originalDeltaY := (draggedPiece.originalPosition.y + draggedPiece.height / 2)
        - (piece.originalPosition.y + piece.height / 2)
      let rotatedDelta := rotateVector originalDeltaX originalDeltaY draggedPiece.rotation
      let expectedCenterX := targetCenterX + rotatedDelta.x
      let expectedCenterY := targetCenterY + rotatedDelta.y
      let dsq := (draggedCenterX - expectedCenterX) * (draggedCenterX - expectedCenterX)
        + (draggedCenterY - expectedCenterY) * (draggedCenterY - expectedCenterY)
      if dsq < SNAP_DISTANCE * SNAP_DISTANCE then
        some ⟨piece, expectedCenterX - draggedPiece.width / 2,
          expectedCenterY - draggedPiece.height / 2, connection, dsq⟩
      else none

/-- One iteration of the candidate scan of SnapDetector.findSnapTarget:
keep the running closest candidate, replacing it only on a strictly smaller
distance, so ties keep the first candidate found, exactly as in the source
loop. -/
def snapFoldStep (draggedPiece : PuzzlePiece) (draggedX draggedY : ℚ)
    (closestSnap : Option SnapResult) (piece : PuzzlePiece) : Option SnapResult :=
  match snapCandidate draggedPiece draggedX draggedY piece with
  | none => closestSnap
  | some r =>
    match closestSnap with
    | none => some r
    | some c => if r.distSq < c.distSq then some r else some c

/-- SnapDetector.findSnapTarget from src/utils/touch.ts: reject a face-down
dragged piece, then scan all pieces keeping the closest accepted candidate. -/
def findSnapTarget (draggedPiece : PuzzlePiece) (allPieces : List PuzzlePiece)
    (draggedX draggedY : ℚ) : Option SnapResult :=
  if draggedPiece.faceUp = false then none
  else allPieces.foldl (snapFoldStep draggedPiece draggedX draggedY) none

/-- The list of piece ids, in board order. -/
def idsOf (pieces : List PuzzlePiece) : List ℕ :=
  pieces.map (fun p => p.id)

/-- Every id mentioned on the board: piece ids together with every id stored
in some connected set.  Used only to size the traversal fuel. -/
def allIds (pieces : List PuzzlePiece) : Finset ℕ :=
  (idsOf pieces).toFinset ∪ pieces.foldr (fun p s => p.connectedPieces.toFinset ∪ s) ∅

/-- Total number of stored connection entries, used to size the fuel. -/
def totalConn (pieces : List PuzzlePiece) : ℕ :=
  (pieces.map (fun p => p.connectedPieces.length)).sum

/-- Strictly decreasing measure of the traversal loop of
PuzzleBoard.getAllPiecesInGroup: unvisited reachable ids weighted by the
maximal number of pushes one visit can perform, plus the worklist length. -/
def gatherMeasure (pieces : List PuzzlePiece) (visited : Finset ℕ)
    (toVisit : List ℕ) : ℕ :=
  ((allIds pieces ∪ toVisit.toFinset) \ visited).card * (totalConn pieces + 1)
    + toVisit.length

/-- The while loop of PuzzleBoard.getAllPiecesInGroup from
src/game/puzzleBoard.ts: pop an id from the worklist, skip it when already
visited, otherwise mark it visited, look the piece up by id, append it to
the group and push its not-yet-visited connected ids.  The source pops from
the array end; the embedding pops from the list head, the same last-in
first-out discipline.  The fuel argument only bounds the recursion: supplied
with at least gatherMeasure much fuel (as getAllPiecesInGroup does) the
recursion runs until the worklist is empty, exactly like the source loop. -/
def gatherGroup (pieces : List PuzzlePiece) :
    ℕ → Finset ℕ → List ℕ → List PuzzlePiece → List PuzzlePiece
  | _, _, [], acc => acc
  | 0, _, _ :: _, acc => acc
  | fuel + 1, visited, pieceId :: rest, acc =>
    if pieceId ∈ visited then
      gatherGroup pieces fuel visited rest acc
    else
      match pieces.find? (fun p => p.id == pieceId) with
      | none => gatherGroup pieces fuel (insert pieceId visited) rest acc
      | some connectedPiece =>
        gatherGroup pieces fuel (insert pieceId visited)
          ((connectedPiece.connectedPieces.filter
            (fun i => i ∉ insert pieceId visited)) ++ rest)
          (acc ++ [connectedPiece])

/-- Enough fuel for the traversal starting from the given piece: an upper
bound on gatherMeasure at the initial state, computed with plain list
lengths. -/
def gatherFuel (pieces : List PuzzlePiece) (piece : PuzzlePiece) : ℕ :=
  (pieces.length + totalConn pieces + piece.connectedPieces.length)
      * (totalConn pieces + 1)
    + piece.connectedPieces.length

/-- PuzzleBoard.getAllPiecesInGroup from src/game/puzzleBoard.ts: the group
starts as the piece itself, its id is visited, and the worklist starts as a
copy of its connected set. -/
def getAllPiecesInGroup (pieces : List PuzzlePiece) (piece : PuzzlePiece) :
    List PuzzlePiece :=
  gatherGroup pieces (gatherFuel pieces piece) {piece.id}
    piece.connectedPieces [piece]

/-- The add method of a JavaScript Set on the duplicate-free list model:
append the element unless it is already present. -/
def addId (s : List ℕ) (x : ℕ) : List ℕ :=
  if x ∈ s then s else s ++ [x]

/-- The merged id set allPieceIds of PuzzleBoard.mergeGroups: the ids of
every piece in either closure, added in iteration order. -/
def mergedIds (pieces : List PuzzlePiece) (piece1 piece2 : PuzzlePiece) : List ℕ :=
  (idsOf (getAllPiecesInGroup pieces piece1
    ++ getAllPiecesInGroup pieces piece2)).foldl addId []

/-- PuzzleBoard.mergeGroups from src/game/puzzleBoard.ts: every piece of
either closure receives a copy of the whole merged id set with itself
deleted as its new connected set.  The source mutates the group member
objects inside this.pieces; with distinct ids this is the id-keyed map
below. -/
def mergeGroups (pieces : List PuzzlePiece) (piece1 piece2 : PuzzlePiece) :
    List PuzzlePiece :=
  pieces.map (fun p =>
    if p.id ∈ mergedIds pieces piece1 piece2 then
      { p with connectedPieces := (mergedIds pieces piece1 piece2).erase p.id }
    else p)

/-- The two connectedPieces.add calls of the pointer-up connect path of
PuzzleBoard.handlePointerUp: each piece records the id of the other.  The
source mutates the two objects in place; with distinct ids this is the
id-keyed map below. -/
def connectPieces (pieces : List PuzzlePiece) (aId bId : ℕ) : List PuzzlePiece :=
  pieces.map (fun p =>
    if p.id = aId then { p with connectedPieces := addId p.connectedPieces bId }
    else if p.id = bId then { p with connectedPieces := addId p.connectedPieces aId }
    else p)

/-- The connect-then-merge sequence of PuzzleBoard.handlePointerUp: record
the symmetric link, then call mergeGroups on the two (updated) pieces. -/
def connectAndMerge (pieces : List PuzzlePiece) (aId bId : ℕ) : List PuzzlePiece :=
  let ps := connectPieces pieces aId bId
  match ps.find? (fun p => p.id == aId), ps.find? (fun p => p.id == bId) with
  | some pa, some pb => mergeGroups ps pa pb
  | _, _ => ps

/-- Two successive connect-then-merge interactions, as in the transitivity
scenario: first pieces aId and bId, then pieces bId and cId. -/
def connectTwice (pieces : List PuzzlePiece) (aId bId cId : ℕ) : List PuzzlePiece :=
  connectAndMerge (connectAndMerge pieces aId bId) bId cId

/-- The loop of PuzzleBoard.getLargestClusterSize: walk the board once,
expanding the cluster of each not-yet-visited piece and keeping the largest
cluster length. -/
def largestLoop (pieces : List PuzzlePiece) :
    List PuzzlePiece → Finset ℕ → ℕ → ℕ
  | [], _, largestSize => largestSize
  | piece :: rest, visited, largestSize =>
    if piece.id ∈ visited then largestLoop pieces rest visited largestSize
    else
      largestLoop pieces rest
        (visited ∪ (idsOf (getAllPiecesInGroup pieces piece)).toFinset)
        (max largestSize (getAllPiecesInGroup pieces piece).length)

/-- PuzzleBoard.getLargestClusterSize from src/game/puzzleBoard.ts. -/
def getLargestClusterSize (pieces : List PuzzlePiece) : ℕ :=
  largestLoop pieces pieces ∅ 0

/-- PuzzleBoard.updateProgress from src/game/puzzleBoard.ts: the pair handed
to the onProgressUpdate callback, namely the largest cluster size and the
total piece count. -/
def updateProgress (pieces : List PuzzlePiece) : ℕ × ℕ :=
  (getLargestClusterSize pieces, pieces.length)

/-- PuzzlePiece.rotate90 from src/game/piece.ts (the piece class is staged
inside src/src/utils/errorHandler.ts): only a face-up piece rotates, its
rotation advancing by 90 degrees modulo 360; a face-down piece is left
unchanged. -/
def PuzzlePiece.rotate90 (piece : PuzzlePiece) : PuzzlePiece :=
  if piece.faceUp then { piece with rotation := (piece.rotation + 90) % 360 }
  else piece

/-- PuzzlePiece.flip from src/game/piece.ts (staged inside
src/src/utils/errorHandler.ts): flipping toggles the face state. -/
def PuzzlePiece.flip (piece : PuzzlePiece) : PuzzlePiece :=
  { piece with faceUp := !piece.faceUp }

/-- Mean of the piece center x coordinates, as accumulated and divided in
PuzzleBoard.rotateGroup. -/
def groupCenterX (group : List PuzzlePiece) : ℚ :=
  (group.map (fun p => p.x + p.width / 2)).sum / group.length

/-- Mean of the piece center y coordinates of the group. -/
def groupCenterY (group : List PuzzlePiece) : ℚ :=
  (group.map (fun p => p.y + p.height / 2)).sum / group.length

/-- PuzzleBoard.rotateGroup from src/game/puzzleBoard.ts: rotate every
member center 90 degrees counterclockwise about the group centroid, then
flip the member when face-down, otherwise rotate it by 90 degrees. -/
def rotateGroup (group : List PuzzlePiece) : List PuzzlePiece :=
  if group.length = 0 then group
  else
    let centerX := groupCenterX group
    let centerY := groupCenterY group
    group.map (fun piece =>
      let pieceCenterX := piece.x + piece.width / 2
      let pieceCenterY := piece.y + piece.height / 2
      let dx := pieceCenterX - centerX
      let dy := pieceCenterY - centerY
      let newDx := -dy
      let newDy := dx
      let moved := { piece with
        x := centerX + newDx - piece.width / 2,
        y := centerY + newDy - piece.height / 2 }
      if moved.faceUp = false then moved.flip else moved.rotate90)

/-- The per-piece action of rotateGroup on an all-face-up group, with the
centroid passed explicitly: position rotated about the centroid and rotation
incremented by 90 mod 360. -/
def stepF (centerX centerY : ℚ) (piece : PuzzlePiece) : PuzzlePiece :=
  { piece with
    x := centerX + -(piece.y + piece.height / 2 - centerY) - piece.width / 2,
    y := centerY + (piece.x + piece.width / 2 - centerX) - piece.height / 2,
    rotation := (piece.rotation + 90) % 360 }

/-- The bounding box object literal returned by PuzzlePiece.getBounds. -/
structure Bounds where
  x : ℚ
  y : ℚ
  width : ℚ
  height : ℚ
deriving DecidableEq

/-- PuzzlePiece.getBounds from src/game/piece.ts (the piece class is staged
inside src/src/utils/errorHandler.ts): the top-left anchored bounding box,
with width and height swapped at 90 and 270 degree rotations.  The stored
rotation is a natural number below 360, so the absolute value taken by the
source is the identity. -/
def PuzzlePiece.getBounds (piece : PuzzlePiece) : Bounds :=
  { x := piece.x, y := piece.y,
    width := if piece.rotation % 180 = 90 then piece.height else piece.width,
    height := if piece.rotation % 180 = 90 then piece.width else piece.height }

/-- PuzzlePiece.containsPoint from src/game/piece.ts (staged inside
src/src/utils/errorHandler.ts): the point lies within the piece bounding
box. -/
def PuzzlePiece.containsPoint (piece : PuzzlePiece) (px py : ℚ) : Bool :=
  let bounds := piece.getBounds
  decide (bounds.x ≤ px) && decide (px ≤ bounds.x + bounds.width)
    && decide (bounds.y ≤ py) && decide (py ≤ bounds.y + bounds.height)

/-- The hit-test scan of PuzzleBoard.handlePointerDown: pieces are scanned
from the top of the draw order (the array end) and a piece is a candidate
exactly when it is not locked and contains the point. -/
def hitCandidates (pieces : List PuzzlePiece) (wx wy : ℚ) : List PuzzlePiece :=
  pieces.reverse.filter (fun piece => !piece.isLocked && piece.containsPoint wx wy)

/-- The drag branch of PuzzleBoard.handlePointerMove: the selected piece is
moved to the pointer position minus its drag offset and every other piece of
its group is translated by the same delta.  The source mutates the group
member objects inside this.pieces; with distinct ids this is the id-keyed
map below. -/
def handleDragMove (pieces : List PuzzlePiece) (selectedPiece : PuzzlePiece)
    (wx wy : ℚ) : List PuzzlePiece :=
  let newX := wx - selectedPiece.dragOffset.x
  let newY := wy - selectedPiece.dragOffset.y
  let deltaX := newX - selectedPiece.x
  let deltaY := newY - selectedPiece.y
  let group := getAllPiecesInGroup pieces selectedPiece
  pieces.map (fun p =>
    if p.id = selectedPiece.id then { p with x := newX, y := newY }
    else if group.any (fun g => g.id == p.id) then
      { p with x := p.x + deltaX, y := p.y + deltaY }
    else p)

/-- The snap translation of PuzzleBoard.handlePointerUp: the whole dragged
group is translated by the single delta aligning the matched group piece to
its snap position.  gx and gy are the current position of the matched group
piece. -/
def applySnap (pieces : List PuzzlePiece) (draggedGroup : List PuzzlePiece)
    (snapX snapY gx gy : ℚ) : List PuzzlePiece :=
  let deltaX := snapX - gx
  let deltaY := snapY - gy
  pieces.map (fun p =>
    if draggedGroup.any (fun g => g.id == p.id) then
      { p with x := p.x + deltaX, y := p.y + deltaY }
    else p)

/-- The camera of PuzzleBoard: screen = world * scale + offset. -/
structure Camera where
  scale : ℚ
  offsetX : ℚ
  offsetY : ℚ
deriving DecidableEq

/-- PuzzleBoard.clampScale from src/game/puzzleBoard.ts. -/
def clampScale (value : ℚ) : ℚ :=
  min MAX_SCALE (max MIN_SCALE value)

/-- PuzzleBoard.screenToWorld from src/game/puzzleBoard.ts. -/
def screenToWorld (camera : Camera) (sx sy : ℚ) : Pt :=
  ⟨(sx - camera.offsetX) / camera.scale, (sy - camera.offsetY) / camera.scale⟩

/-- PuzzleBoard.zoomAtScreenPoint from src/game/puzzleBoard.ts: clamp the
new scale, return unchanged when the clamped scale equals the current one,
otherwise recompute the offset from the anchored world point. -/
def zoomAtScreenPoint (camera : Camera) (screenX screenY scaleFactor : ℚ) : Camera :=
  let worldPoint := screenToWorld camera screenX screenY
  let newScale := clampScale (camera.scale * scaleFactor)
  if newScale = camera.scale then camera
  else
    { scale := newScale,
      offsetX := screenX - worldPoint.x * newScale,
      offsetY := screenY - worldPoint.y * newScale }

/-- Symmetry of the live connectivity relation (spec section 3 invariant). -/
def SymmConn (pieces : List PuzzlePiece) : Prop :=
  ∀ p ∈ pieces, ∀ q ∈ pieces,
    (q.id ∈ p.connectedPieces ↔ p.id ∈ q.connectedPieces)

/-- The id set of the group computed for a piece. -/
def groupIds (pieces : List PuzzlePiece) (piece : PuzzlePiece) : Finset ℕ :=
  (idsOf (getAllPiecesInGroup pieces piece)).toFinset

/-- A sample 2 by 2 piece for the concrete board states below. -/
def samplePiece (id : ℕ) (x y : ℚ) (faceUp isLocked : Bool) (origX origY : ℚ)
    (conns : List (Option PieceConnection)) (connected : List ℕ)
    (rotation : ℕ) : PuzzlePiece :=
  { id := id, x := x, y := y, width := 2, height := 2, rotation := rotation,
    faceUp := faceUp, connections := conns, isDragging := false,
    dragOffset := ⟨0, 0⟩, isLocked := isLocked,
    originalPosition := ⟨origX, origY⟩, connectedPieces := connected }

/-- A face-up dragged piece declaring a connection to piece 1 on its right
edge; solved position at the origin. -/
def demoDragged : PuzzlePiece :=
  samplePiece 0 0 0 true false 0 0
    [some ⟨PieceEdge.right, some TabKind.tab, some 1, none⟩] [] 0

/-- The matching neighbor of demoDragged, sitting at its solved position. -/
def demoTarget : PuzzlePiece :=
  samplePiece 1 2 0 true false 2 0
    [some ⟨PieceEdge.left, some TabKind.blank, some 0, none⟩] [] 0

/-- A face-down piece. -/
def demoFaceDown : PuzzlePiece :=
  samplePiece 0 0 0 false false 0 0 [] [] 0

/-- An unlocked piece connected to piece 1. -/
def demoA : PuzzlePiece := samplePiece 0 0 0 true false 0 0 [] [1] 0

/-- A locked piece connected to piece 0, resting at x = 100. -/
def demoB : PuzzlePiece := samplePiece 1 100 0 true true 100 0 [] [0] 0

/-- A two-piece board whose two pieces form one group, one of them locked. -/
def demoPieces : List PuzzlePiece := [demoA, demoB]

/-- An unlocked piece with no connections. -/
def demoFree : PuzzlePiece := samplePiece 0 0 0 true false 0 0 [] [] 0

/-- A locked piece with no connections, far from demoFree. -/
def demoLockedFar : PuzzlePiece := samplePiece 2 200 0 true true 200 0 [] [] 0

/-- A two-piece board with an unlocked piece and an unrelated locked piece. -/
def demoPieces2 : List PuzzlePiece := [demoFree, demoLockedFar]

/-- Three initially disconnected pieces with ids 0, 1 and 2. -/
def demoTrio : List PuzzlePiece :=
  [samplePiece 0 0 0 true false 0 0 [] [] 0,
    samplePiece 1 10 0 true false 10 0 [] ∅ 0,
    samplePiece 2 20 0 true false 20 0 [] ∅ 0]

/-- The clamped scale always lies between MIN_SCALE and MAX_SCALE. -/
theorem clampScale_bounds (value : ℚ) :
    MIN_SCALE ≤ clampScale value ∧ clampScale value ≤ MAX_SCALE := by
  constructor
  · exact le_min (by norm_num [MIN_SCALE, MAX_SCALE]) (le_max_left _ _)
  · exact min_le_left _ _

/-- The clamped scale is positive. -/
theorem clampScale_pos (value : ℚ) : 0 < clampScale value := by
  have h := (clampScale_bounds value).1
  have : (0 : ℚ) < MIN_SCALE := by norm_num [MIN_SCALE]
  linarith

/-- C9: zoomAtScreenPoint sets the camera scale to the clamped product of
the old scale and the factor, the resulting scale lies within
[MIN_SCALE, MAX_SCALE], and the world point that was under the given screen
point before the zoom is still under it afterwards (anchor-preserving
zoom). -/
theorem zoomAtScreenPoint_spec (camera : Camera) (screenX screenY scaleFactor : ℚ) :
    (zoomAtScreenPoint camera screenX screenY scaleFactor).scale
        = clampScale (camera.scale * scaleFactor)
      ∧ MIN_SCALE ≤ (zoomAtScreenPoint camera screenX screenY scaleFactor).scale
      ∧ (zoomAtScreenPoint camera screenX screenY scaleFactor).scale ≤ MAX_SCALE
      ∧ screenToWorld (zoomAtScreenPoint camera screenX screenY scaleFactor)
          screenX screenY
        = screenToWorld camera screenX screenY := by
  have hb := clampScale_bounds (camera.scale * scaleFactor)
  have hpos := clampScale_pos (camera.scale * scaleFactor)
  by_cases h : clampScale (camera.scale * scaleFactor) = camera.scale
  · have hz : zoomAtScreenPoint camera screenX screenY scaleFactor = camera := by
      simp [zoomAtScreenPoint, h]
    rw [hz]
    exact ⟨h.symm, h ▸ hb.1, h ▸ hb.2, rfl⟩
  · have hz : zoomAtScreenPoint camera screenX screenY scaleFactor =
        { scale := clampScale (camera.scale * scaleFactor),
          offsetX := screenX - (screenToWorld camera screenX screenY).x
            * clampScale (camera.scale * scaleFactor),
          offsetY := screenY - (screenToWorld camera screenX screenY).y
            * clampScale (camera.scale * scaleFactor) } := by
      simp [zoomAtScreenPoint, h]
    rw [hz]
    refine ⟨rfl, hb.1, hb.2, ?_⟩
    have hne : clampScale (camera.scale * scaleFactor) ≠ 0 := ne_of_gt hpos
    simp only [screenToWorld]
    by_cases hcs : camera.scale = 0
    · simp [hcs, div_zero, mul_zero, zero_mul, sub_self, sub_zero, zero_div]
    · congr 1 <;> field_simp <;> ring

/-- C5: a face-down dragged piece never snaps; findSnapTarget returns the
explicit absent value for every board and every proposed position. -/
theorem findSnapTarget_facedown (draggedPiece : PuzzlePiece)
    (allPieces : List PuzzlePiece) (draggedX draggedY : ℚ)
    (h : draggedPiece.faceUp = false) :
    findSnapTarget draggedPiece allPieces draggedX draggedY = none := by
  simp [findSnapTarget, h]

/-- Concrete instance of findSnapTarget_facedown. -/
theorem findSnapTarget_facedown_witness :
    demoFaceDown.faceUp = false
      ∧ findSnapTarget demoFaceDown [demoTarget] 0 0 = none :=
  ⟨by decide, findSnapTarget_facedown demoFaceDown [demoTarget] 0 0 (by decide)⟩

/-- A candidate returned by the scan body is the scanned piece itself, and
it passed the rotation guard. -/
theorem snapCandidate_target (draggedPiece piece : PuzzlePiece)
    (draggedX draggedY : ℚ) (r : SnapResult)
    (h : snapCandidate draggedPiece draggedX draggedY piece = some r) :
    r.targetPiece = piece ∧ piece.rotation = draggedPiece.rotation := by
  revert h
  simp only [snapCandidate]
  cases hc : getConnection draggedPiece piece with
  | none =>
    split_ifs <;> intro h <;> cases h
  | some connection =>
    split_ifs with h1 h2 h3 h4 hd
    · intro h; cases h
    · intro h; cases h
    · intro h; cases h
    · intro h; cases h
    · intro h
      have h2 := Option.some.inj h
      subst h2
      exact ⟨rfl, not_ne_iff.mp h4⟩
    · intro h; cases h

/-- C3: for a face-up dragged piece and a piece passing the candidate guards
(distinct id, not already grouped, face-up, matching rotation, declared
connection), the scan accepts the piece exactly when the squared distance
between the proposed dragged center and the expected center, namely the
target center plus the solved-position center offset rotated by the dragged
rotation, is strictly below the squared snap threshold (30 squared); and on
a one-piece board findSnapTarget returns exactly this candidate. -/
theorem findSnapTarget_accepts_iff (draggedPiece piece : PuzzlePiece)
    (draggedX draggedY : ℚ) (connection : PieceConnection)
    (hface : draggedPiece.faceUp = true)
    (hid : piece.id ≠ draggedPiece.id)
    (hgroup : piece.id ∉ draggedPiece.connectedPieces)
    (hpface : piece.faceUp = true)
    (hrot : piece.rotation = draggedPiece.rotation)
    (hconn : getConnection draggedPiece piece = some connection) :
    (((snapCandidate draggedPiece draggedX draggedY piece).isSome = true) ↔
      ((draggedX + draggedPiece.width / 2)
          - ((piece.x + piece.width / 2)
            + (rotateVector
                ((draggedPiece.originalPosition.x + draggedPiece.width / 2)
                  - (piece.originalPosition.x + piece.width / 2))
                ((draggedPiece.originalPosition.y + draggedPiece.height / 2)
                  - (piece.originalPosition.y + piece.height / 2))
                draggedPiece.rotation).x))
          * ((draggedX + draggedPiece.width / 2)
            - ((piece.x + piece.width / 2)
              + (rotateVector
                  ((draggedPiece.originalPosition.x + draggedPiece.width / 2)
                    - (piece.originalPosition.x + piece.width / 2))
                  ((draggedPiece.originalPosition.y + draggedPiece.height / 2)
                    - (piece.originalPosition.y + piece.height / 2))
                  draggedPiece.rotation).x))
        + ((draggedY + draggedPiece.height / 2)
            - ((piece.y + piece.height / 2)
              + (rotateVector
                  ((draggedPiece.originalPosition.x + draggedPiece.width / 2)
                    - (piece.originalPosition.x + piece.width / 2))
                  ((draggedPiece.originalPosition.y + draggedPiece.height / 2)
                    - (piece.originalPosition.y + piece.height / 2))
                  draggedPiece.rotation).y))
          * ((draggedY + draggedPiece.height / 2)
            - ((piece.y + piece.height / 2)
              + (rotateVector
                  ((draggedPiece.originalPosition.x + draggedPiece.width / 2)
                    - (piece.originalPosition.x + piece.width / 2))
                  ((draggedPiece.originalPosition.y + draggedPiece.height / 2)
                    - (piece.originalPosition.y + piece.height / 2))
                  draggedPiece.rotation).y))
        < SNAP_DISTANCE * SNAP_DISTANCE)
    ∧ findSnapTarget draggedPiece [piece] draggedX draggedY
        = snapCandidate draggedPiece draggedX draggedY piece := by
  have hface3 : ¬ piece.faceUp = false := by simp [hpface]
  have hrot2 : ¬ piece.rotation ≠ draggedPiece.rotation := by simp [hrot]
  constructor
  · simp only [snapCandidate]
    rw [if_neg hid, if_neg hgroup, if_neg hface3, if_neg hrot2, hconn]
    split_ifs with hd
    · simpa using hd
    · simpa using hd
  · have hface2 : ¬ draggedPiece.faceUp = false := by simp [hface]
    simp only [findSnapTarget, if_neg hface2, List.foldl_cons, List.foldl_nil]
    cases hc : snapCandidate draggedPiece draggedX draggedY piece with
    | none => simp [snapFoldStep, hc]
    | some r => simp [snapFoldStep, hc]

/-- Concrete instance of findSnapTarget_accepts_iff at the demo pieces. -/
theorem findSnapTarget_accepts_iff_witness :
    (demoDragged.faceUp = true ∧ demoTarget.rotation = demoDragged.rotation
        ∧ getConnection demoDragged demoTarget
          = some ⟨PieceEdge.right, some TabKind.tab, some 1, none⟩)
      ∧ (((snapCandidate demoDragged 0 0 demoTarget).isSome = true) ↔
          ((0 + demoDragged.width / 2)
              - ((demoTarget.x + demoTarget.width / 2)
                + (rotateVector
                    ((demoDragged.originalPosition.x + demoDragged.width / 2)
                      - (demoTarget.originalPosition.x + demoTarget.width / 2))
                    ((demoDragged.originalPosition.y + demoDragged.height / 2)
                      - (demoTarget.originalPosition.y + demoTarget.height / 2))
                    demoDragged.rotation).x))
              * ((0 + demoDragged.width / 2)
                - ((demoTarget.x + demoTarget.width / 2)
                  + (rotateVector
                      ((demoDragged.originalPosition.x + demoDragged.width / 2)
                        - (demoTarget.originalPosition.x + demoTarget.width / 2))
                      ((demoDragged.originalPosition.y + demoDragged.height / 2)
                        - (demoTarget.originalPosition.y + demoTarget.height / 2))
                      demoDragged.rotation).x))
            + ((0 + demoDragged.height / 2)
                - ((demoTarget.y + demoTarget.height / 2)
                  + (rotateVector
                      ((demoDragged.originalPosition.x + demoDragged.width / 2)
                        - (demoTarget.originalPosition.x + demoTarget.width / 2))
                      ((demoDragged.originalPosition.y + demoDragged.height / 2)
                        - (demoTarget.originalPosition.y + demoTarget.height / 2))
                      demoDragged.rotation).y))
              * ((0 + demoDragged.height / 2)
                - ((demoTarget.y + demoTarget.height / 2)
                  + (rotateVector
                      ((demoDragged.originalPosition.x + demoDragged.width / 2)
                        - (demoTarget.originalPosition.x + demoTarget.width / 2))
                      ((demoDragged.originalPosition.y + demoDragged.height / 2)
                        - (demoTarget.originalPosition.y + demoTarget.height / 2))
                      demoDragged.rotation).y))
            < SNAP_DISTANCE * SNAP_DISTANCE)
      ∧ findSnapTarget demoDragged [demoTarget] 0 0
          = snapCandidate demoDragged 0 0 demoTarget :=
  ⟨⟨by decide, by decide, by decide⟩,
    (findSnapTarget_accepts_iff demoDragged demoTarget 0 0
      ⟨PieceEdge.right, some TabKind.tab, some 1, none⟩ (by decide) (by decide) (by decide)
      (by decide) (by decide) (by decide)).1,
    (findSnapTarget_accepts_iff demoDragged demoTarget 0 0
      ⟨PieceEdge.right, some TabKind.tab, some 1, none⟩ (by decide) (by decide) (by decide)
      (by decide) (by decide) (by decide)).2⟩

/-- Concrete evaluation of the candidate scan body on the demo pieces. -/
theorem demo_snapCandidate_eval :
    snapCandidate demoDragged 0 0 demoTarget
      = some ⟨demoTarget, 0, 0, ⟨PieceEdge.right, some TabKind.tab, some 1, none⟩, 0⟩ := by
  have hconn : getConnection demoDragged demoTarget
      = some ⟨PieceEdge.right, some TabKind.tab, some 1, none⟩ := by decide
  simp only [snapCandidate, hconn]
  norm_num [demoDragged, demoTarget, samplePiece, rotateVector, SNAP_DISTANCE]

/-- Concrete evaluation of findSnapTarget on the demo pieces. -/
theorem demo_findSnapTarget_eval :
    findSnapTarget demoDragged [demoTarget] 0 0
      = some ⟨demoTarget, 0, 0, ⟨PieceEdge.right, some TabKind.tab, some 1, none⟩, 0⟩ := by
  have hface : ¬ demoDragged.faceUp = false := by decide
  simp only [findSnapTarget, if_neg hface, List.foldl_cons, List.foldl_nil,
    snapFoldStep, demo_snapCandidate_eval]

/-- Folding from an already-found unique candidate keeps it. -/
theorem snapFold_keep (draggedPiece : PuzzlePiece) (draggedX draggedY : ℚ)
    (r : SnapResult) :
    ∀ l : List PuzzlePiece,
      (∀ q ∈ l, snapCandidate draggedPiece draggedX draggedY q = none
          ∨ snapCandidate draggedPiece draggedX draggedY q = some r) →
      l.foldl (snapFoldStep draggedPiece draggedX draggedY) (some r) = some r := by
  intro l
  induction l with
  | nil => intro _; rfl
  | cons q t ih =>
    intro hq
    have hstep : snapFoldStep draggedPiece draggedX draggedY (some r) q = some r := by
      rcases hq q (by simp) with h | h
      · simp [snapFoldStep, h]
      · simp [snapFoldStep, h]
    simp only [List.foldl_cons, hstep]
    exact ih (fun q2 hm => hq q2 (by simp [hm]))

/-- With exactly one accepted candidate in the list the scan finds it,
whatever the list order. -/
theorem snapFold_unique (draggedPiece : PuzzlePiece) (draggedX draggedY : ℚ)
    (p : PuzzlePiece) (r : SnapResult)
    (hp : snapCandidate draggedPiece draggedX draggedY p = some r) :
    ∀ l : List PuzzlePiece, p ∈ l →
      (∀ q ∈ l, q = p ∨ snapCandidate draggedPiece draggedX draggedY q = none) →
      l.foldl (snapFoldStep draggedPiece draggedX draggedY) none = some r := by
  intro l
  induction l with
  | nil => intro h; cases h
  | cons q t ih =>
    intro hmem huniq
    by_cases hq : snapCandidate draggedPiece draggedX draggedY q = none
    · have hqp : q ≠ p := by
        intro h
        rw [h, hp] at hq
        cases hq
      have hpt : p ∈ t := by
        rcases List.mem_cons.mp hmem with h | h
        · exact absurd h.symm hqp
        · exact h
      simp only [List.foldl_cons, snapFoldStep, hq]
      exact ih hpt (fun q2 hm => huniq q2 (by simp [hm]))
    · have hqp : q = p := by
        rcases huniq q (by simp) with h | h
        · exact h
        · exact absurd h hq
      subst hqp
      simp only [List.foldl_cons, snapFoldStep, hp]
      exact snapFold_keep draggedPiece draggedX draggedY r t
        (fun q2 hm => by
          rcases huniq q2 (by simp [hm]) with h | h
          · right; rw [h]; exact hp
          · left; exact h)

/-- C4: when exactly one piece of the layout is an accepted candidate, the
snap detector returns that candidate for every iteration order of the piece
list. -/
theorem findSnapTarget_unique_order_independent (draggedPiece p : PuzzlePiece)
    (draggedX draggedY : ℚ) (r : SnapResult) (l lp : List PuzzlePiece)
    (hface : draggedPiece.faceUp = true)
    (hp : snapCandidate draggedPiece draggedX draggedY p = some r)
    (hmem : p ∈ l)
    (huniq : ∀ q ∈ l, q = p ∨ snapCandidate draggedPiece draggedX draggedY q = none)
    (hperm : l.Perm lp) :
    findSnapTarget draggedPiece lp draggedX draggedY = some r := by
  have hface2 : ¬ draggedPiece.faceUp = false := by simp [hface]
  simp only [findSnapTarget, if_neg hface2]
  exact snapFold_unique draggedPiece draggedX draggedY p r hp lp
    (hperm.mem_iff.mp hmem)
    (fun q hm => huniq q (hperm.symm.subset hm))

/-- Concrete instance of findSnapTarget_unique_order_independent. -/
theorem findSnapTarget_unique_order_independent_witness :
    snapCandidate demoDragged 0 0 demoTarget
        = some ⟨demoTarget, 0, 0, ⟨PieceEdge.right, some TabKind.tab, some 1, none⟩, 0⟩
      ∧ findSnapTarget demoDragged [demoTarget] 0 0
        = some ⟨demoTarget, 0, 0, ⟨PieceEdge.right, some TabKind.tab, some 1, none⟩, 0⟩ :=
  ⟨demo_snapCandidate_eval,
    findSnapTarget_unique_order_independent demoDragged demoTarget 0 0
      ⟨demoTarget, 0, 0, ⟨PieceEdge.right, some TabKind.tab, some 1, none⟩, 0⟩
      [demoTarget] [demoTarget] (by decide) demo_snapCandidate_eval (by decide)
      (fun q hq => Or.inl (List.mem_singleton.mp hq)) (List.Perm.refl _)⟩

/-- Any result of the candidate fold has the dragged rotation, provided the
starting accumulator does. -/
theorem snapFold_rotation (draggedPiece : PuzzlePiece) (draggedX draggedY : ℚ) :
    ∀ (l : List PuzzlePiece) (acc : Option SnapResult),
      (∀ s, acc = some s → s.targetPiece.rotation = draggedPiece.rotation) →
      ∀ res, l.foldl (snapFoldStep draggedPiece draggedX draggedY) acc = some res →
        res.targetPiece.rotation = draggedPiece.rotation := by
  intro l
  induction l with
  | nil => intro acc hacc res h; exact hacc res h
  | cons q t ih =>
    intro acc hacc res h
    refine ih _ ?_ res h
    intro s hs
    cases hc : snapCandidate draggedPiece draggedX draggedY q with
    | none =>
      simp only [snapFoldStep, hc] at hs
      exact hacc s hs
    | some rr =>
      have hrr := snapCandidate_target draggedPiece q draggedX draggedY rr hc
      cases acc with
      | none =>
        simp only [snapFoldStep, hc, Option.some.injEq] at hs
        subst hs
        rw [hrr.1]
        exact hrr.2
      | some c =>
        simp only [snapFoldStep, hc] at hs
        split_ifs at hs
        · simp only [Option.some.injEq] at hs
          subst hs
          rw [hrr.1]
          exact hrr.2
        · simp only [Option.some.injEq] at hs
          subst hs
          exact hacc c rfl

/-- C10: every snap target returned by findSnapTarget has exactly the
rotation of the dragged piece, so a piece whose rotation differs from the
dragged rotation is skipped and can never be returned as the target. -/
theorem findSnapTarget_rotation_guard (draggedPiece : PuzzlePiece)
    (allPieces : List PuzzlePiece) (draggedX draggedY : ℚ) (res : SnapResult)
    (h : findSnapTarget draggedPiece allPieces draggedX draggedY = some res) :
    res.targetPiece.rotation = draggedPiece.rotation := by
  unfold findSnapTarget at h
  by_cases hface : draggedPiece.faceUp = false
  · rw [if_pos hface] at h
    cases h
  · rw [if_neg hface] at h
    exact snapFold_rotation draggedPiece draggedX draggedY allPieces none
      (fun s hs => by cases hs) res h

/-- Concrete instance of findSnapTarget_rotation_guard. -/
theorem findSnapTarget_rotation_guard_witness :
    findSnapTarget demoDragged [demoTarget] 0 0
        = some ⟨demoTarget, 0, 0, ⟨PieceEdge.right, some TabKind.tab, some 1, none⟩, 0⟩
      ∧ (⟨demoTarget, 0, 0, ⟨PieceEdge.right, some TabKind.tab, some 1, none⟩, 0⟩
          : SnapResult).targetPiece.rotation = demoDragged.rotation :=
  ⟨demo_findSnapTarget_eval,
    findSnapTarget_rotation_guard demoDragged [demoTarget] 0 0
      ⟨demoTarget, 0, 0, ⟨PieceEdge.right, some TabKind.tab, some 1, none⟩, 0⟩
      demo_findSnapTarget_eval⟩

/-- With pairwise distinct ids, a piece of the board is determined by its
id. -/
theorem eq_of_mem_of_id_eq {pieces : List PuzzlePiece}
    (hnd : (idsOf pieces).Nodup) {p q : PuzzlePiece}
    (hp : p ∈ pieces) (hq : q ∈ pieces) (h : p.id = q.id) : p = q := by
  induction pieces with
  | nil => cases hp
  | cons a t ih =>
    simp only [idsOf, List.map_cons, List.nodup_cons] at hnd
    rcases List.mem_cons.mp hp with rfl | hp2
    · rcases List.mem_cons.mp hq with rfl | hq2
      · rfl
      · exact absurd (h ▸ List.mem_map_of_mem (fun r => r.id) hq2) hnd.1
    · rcases List.mem_cons.mp hq with rfl | hq2
      · exact absurd (h ▸ List.mem_map_of_mem (fun r => r.id) hp2) hnd.1
      · exact ih (by simpa [idsOf] using hnd.2) hp2 hq2

/-- With pairwise distinct ids, looking a member piece up by its id finds
exactly that piece. -/
theorem find?_id_eq_some {pieces : List PuzzlePiece}
    (hnd : (idsOf pieces).Nodup) {q : PuzzlePiece}
    (hq : q ∈ pieces) {i : ℕ} (h : q.id = i) :
    pieces.find? (fun p => p.id == i) = some q := by
  induction pieces with
  | nil => cases hq
  | cons a t ih =>
    simp only [idsOf, List.map_cons, List.nodup_cons] at hnd
    rcases List.mem_cons.mp hq with rfl | hq2
    · have : (q.id == i) = true := by simp [h]
      simp [List.find?_cons, this]
    · have hne : (a.id == i) = false := by
        simp only [beq_eq_false_iff_ne, ne_eq]
        intro habs
        exact hnd.1 (by
          rw [habs, ← h]
          exact List.mem_map_of_mem (fun r => r.id) hq2)
      simp only [List.find?_cons, hne]
      exact ih (by simpa [idsOf] using hnd.2) hq2

/-- A successful find by id returns a member carrying that id. -/
theorem find?_id_mem_and_id {pieces : List PuzzlePiece} {i : ℕ}
    {q : PuzzlePiece} (h : pieces.find? (fun p => p.id == i) = some q) :
    q ∈ pieces ∧ q.id = i := by
  refine ⟨List.mem_of_find?_eq_some h, ?_⟩
  have := List.find?_some h
  simpa using this

/-- Membership in the folded union of connected sets. -/
theorem mem_connUnion {pieces : List PuzzlePiece} {i : ℕ} :
    i ∈ pieces.foldr (fun p s => p.connectedPieces.toFinset ∪ s) ∅
      ↔ ∃ p ∈ pieces, i ∈ p.connectedPieces := by
  induction pieces with
  | nil => simp
  | cons a t ih => simp [ih]

/-- Connected sets of members are contained in allIds. -/
theorem conn_subset_allIds {pieces : List PuzzlePiece} {p : PuzzlePiece}
    (hp : p ∈ pieces) : p.connectedPieces.toFinset ⊆ allIds pieces := by
  intro i hi
  unfold allIds
  exact Finset.mem_union_right _ (mem_connUnion.mpr ⟨p, hp, List.mem_toFinset.mp hi⟩)

/-- Ids of members are contained in allIds. -/
theorem id_mem_allIds {pieces : List PuzzlePiece} {p : PuzzlePiece}
    (hp : p ∈ pieces) : p.id ∈ allIds pieces := by
  unfold allIds
  exact Finset.mem_union_left _
    (List.mem_toFinset.mpr (List.mem_map_of_mem (fun r => r.id) hp))

/-- A connected list of a member is no longer than the total count. -/
theorem conn_length_le_totalConn {pieces : List PuzzlePiece} {p : PuzzlePiece}
    (hp : p ∈ pieces) : p.connectedPieces.length ≤ totalConn pieces := by
  induction pieces with
  | nil => cases hp
  | cons a t ih =>
    simp only [totalConn, List.map_cons, List.sum_cons]
    rcases List.mem_cons.mp hp with rfl | hp2
    · exact Nat.le_add_right _ _
    · have := ih hp2
      simp only [totalConn] at this
      omega

/-- Arithmetic core of the strict measure decrease. -/
theorem measure_key (A B K ln rl : ℕ) (h1 : A + K ≤ B) (h2 : ln + 1 ≤ K + rl) :
    A + ln < B + (rl + 1) := by omega

/-- Popping an already visited id shrinks the measure. -/
theorem gatherMeasure_skip (pieces : List PuzzlePiece) (visited : Finset ℕ)
    (pieceId : ℕ) (rest : List ℕ) :
    gatherMeasure pieces visited rest
      < gatherMeasure pieces visited (pieceId :: rest) := by
  unfold gatherMeasure
  have hsub : (allIds pieces ∪ rest.toFinset) \ visited
      ⊆ (allIds pieces ∪ (pieceId :: rest).toFinset) \ visited := by
    refine Finset.sdiff_subset_sdiff ?_ le_rfl
    refine Finset.union_subset_union_right ?_
    intro i hi
    simp only [List.toFinset_cons, Finset.mem_insert]
    exact Or.inr hi
  have hmul := Nat.mul_le_mul_right (totalConn pieces + 1)
    (Finset.card_le_card hsub)
  have hlen : (pieceId :: rest).length = rest.length + 1 := rfl
  rw [hlen]
  exact Nat.add_lt_add_of_le_of_lt hmul (Nat.lt_succ_self _)

/-- Visiting an id with no matching piece shrinks the measure. -/
theorem gatherMeasure_none (pieces : List PuzzlePiece) (visited : Finset ℕ)
    (pieceId : ℕ) (rest : List ℕ) :
    gatherMeasure pieces (insert pieceId visited) rest
      < gatherMeasure pieces visited (pieceId :: rest) := by
  unfold gatherMeasure
  have hsub : (allIds pieces ∪ rest.toFinset) \ insert pieceId visited
      ⊆ (allIds pieces ∪ (pieceId :: rest).toFinset) \ visited := by
    refine Finset.sdiff_subset_sdiff ?_ ?_
    · refine Finset.union_subset_union_right ?_
      intro i hi
      simp only [List.toFinset_cons, Finset.mem_insert]
      exact Or.inr hi
    · exact Finset.subset_insert _ _
  have hmul := Nat.mul_le_mul_right (totalConn pieces + 1)
    (Finset.card_le_card hsub)
  have hlen : (pieceId :: rest).length = rest.length + 1 := rfl
  rw [hlen]
  exact Nat.add_lt_add_of_le_of_lt hmul (Nat.lt_succ_self _)

/-- Visiting a found piece shrinks the measure: one more visited id pays for
all the ids the visit pushes. -/
theorem gatherMeasure_found (pieces : List PuzzlePiece) (visited : Finset ℕ)
    (pieceId : ℕ) (rest : List ℕ) (connectedPiece : PuzzlePiece)
    (hv : pieceId ∉ visited)
    (hcp : connectedPiece ∈ pieces) :
    gatherMeasure pieces (insert pieceId visited)
        ((connectedPiece.connectedPieces.filter
          (fun i => i ∉ insert pieceId visited)) ++ rest)
      < gatherMeasure pieces visited (pieceId :: rest) := by
  unfold gatherMeasure
  have hidU : pieceId ∈ (allIds pieces ∪ (pieceId :: rest).toFinset) \ visited := by
    refine Finset.mem_sdiff.mpr ⟨?_, hv⟩
    refine Finset.mem_union_right _ ?_
    simp [List.toFinset_cons]
  have hsub : (allIds pieces
        ∪ ((connectedPiece.connectedPieces.filter
            (fun i => i ∉ insert pieceId visited)) ++ rest).toFinset)
        \ insert pieceId visited
      ⊆ ((allIds pieces ∪ (pieceId :: rest).toFinset) \ visited).erase pieceId := by
    intro x hx
    rcases Finset.mem_sdiff.mp hx with ⟨hxU, hxv⟩
    have hxne : x ≠ pieceId := by
      intro habs
      exact hxv (habs ▸ Finset.mem_insert_self pieceId visited)
    have hxnv : x ∉ visited := fun habs => hxv (Finset.mem_insert_of_mem habs)
    refine Finset.mem_erase.mpr ⟨hxne, Finset.mem_sdiff.mpr ⟨?_, hxnv⟩⟩
    rcases Finset.mem_union.mp hxU with hxa | hxl
    · exact Finset.mem_union_left _ hxa
    · rw [List.toFinset_append, Finset.mem_union] at hxl
      rcases hxl with hxf | hxr
      · refine Finset.mem_union_left _ (conn_subset_allIds hcp ?_)
        rw [List.mem_toFinset] at hxf ⊢
        exact List.mem_of_mem_filter hxf
      · refine Finset.mem_union_right _ ?_
        simp only [List.toFinset_cons, Finset.mem_insert]
        exact Or.inr hxr
  have hposR : 0 < ((allIds pieces ∪ (pieceId :: rest).toFinset) \ visited).card :=
    Finset.card_pos.mpr ⟨pieceId, hidU⟩
  have herase := Finset.card_erase_of_mem hidU
  have hcardle := Finset.card_le_card hsub
  have hcard : ((allIds pieces
        ∪ ((connectedPiece.connectedPieces.filter
          (fun i => i ∉ insert pieceId visited)) ++ rest).toFinset)
        \ insert pieceId visited).card + 1
      ≤ ((allIds pieces ∪ (pieceId :: rest).toFinset) \ visited).card := by
    omega
  have hpush : (connectedPiece.connectedPieces.filter
      (fun i => i ∉ insert pieceId visited)).length ≤ totalConn pieces :=
    le_trans (List.length_filter_le _ _) (conn_length_le_totalConn hcp)
  have h1 : ((allIds pieces
        ∪ ((connectedPiece.connectedPieces.filter
          (fun i => i ∉ insert pieceId visited)) ++ rest).toFinset)
        \ insert pieceId visited).card * (totalConn pieces + 1)
        + (totalConn pieces + 1)
      ≤ ((allIds pieces ∪ (pieceId :: rest).toFinset) \ visited).card
        * (totalConn pieces + 1) := by
    have hmul := Nat.mul_le_mul_right (totalConn pieces + 1) hcard
    rw [add_mul, one_mul] at hmul
    exact hmul
  simp only [List.length_append, List.length_cons]
  exact measure_key _ _ (totalConn pieces + 1) _ _ h1 (by omega)

/-- The folded union of connected sets has at most totalConn elements. -/
theorem connUnion_card_le (pieces : List PuzzlePiece) :
    (pieces.foldr (fun p s => p.connectedPieces.toFinset ∪ s) (∅ : Finset ℕ)).card
      ≤ totalConn pieces := by
  induction pieces with
  | nil =>
    simp only [List.foldr_nil, Finset.card_empty]
    exact Nat.zero_le _
  | cons a t ih =>
    have h1 := Finset.card_union_le a.connectedPieces.toFinset
      (t.foldr (fun p s => p.connectedPieces.toFinset ∪ s) (∅ : Finset ℕ))
    have h2 := List.toFinset_card_le a.connectedPieces
    simp only [totalConn, List.map_cons, List.sum_cons, List.foldr_cons]
    simp only [totalConn] at ih
    omega

/-- allIds has at most one entry per piece plus one per stored connection. -/
theorem allIds_card_le (pieces : List PuzzlePiece) :
    (allIds pieces).card ≤ pieces.length + totalConn pieces := by
  unfold allIds
  have h1 := Finset.card_union_le (idsOf pieces).toFinset
    (pieces.foldr (fun p s => p.connectedPieces.toFinset ∪ s) (∅ : Finset ℕ))
  have h2 := List.toFinset_card_le (idsOf pieces)
  have h3 := connUnion_card_le pieces
  have h4 : (idsOf pieces).length = pieces.length := List.length_map _ _
  omega

/-- The fuel supplied by getAllPiecesInGroup bounds the initial measure, so
the embedded loop runs to completion exactly like the source loop. -/
theorem gatherFuel_ge (pieces : List PuzzlePiece) (piece : PuzzlePiece) :
    gatherMeasure pieces {piece.id} piece.connectedPieces
      ≤ gatherFuel pieces piece := by
  unfold gatherMeasure gatherFuel
  have h2 : ((allIds pieces ∪ piece.connectedPieces.toFinset) \ {piece.id}).card
      ≤ (allIds pieces ∪ piece.connectedPieces.toFinset).card :=
    Finset.card_le_card Finset.sdiff_subset
  have h3 := Finset.card_union_le (allIds pieces) piece.connectedPieces.toFinset
  have h4 := allIds_card_le pieces
  have h5 := List.toFinset_card_le piece.connectedPieces
  have h1 : ((allIds pieces ∪ piece.connectedPieces.toFinset) \ {piece.id}).card
      ≤ pieces.length + totalConn pieces + piece.connectedPieces.length := by
    omega
  have hm := Nat.mul_le_mul_right (totalConn pieces + 1) h1
  exact Nat.add_le_add_right hm _

/-- On a clique state (every id of M names a member whose connected list is
exactly M minus itself), the traversal starting inside M collects exactly
the ids of M, without duplicates. -/
theorem gather_invariant (pieces : List PuzzlePiece)
    (hnd : (idsOf pieces).Nodup) (M : Finset ℕ)
    (hM : ∀ i ∈ M, ∃ p, p ∈ pieces ∧ p.id = i
      ∧ p.connectedPieces.toFinset = M.erase i) :
    ∀ (fuel : ℕ) (visited : Finset ℕ) (toVisit : List ℕ) (acc : List PuzzlePiece),
      gatherMeasure pieces visited toVisit ≤ fuel →
      visited ⊆ M →
      (∀ i ∈ toVisit, i ∈ M) →
      visited ∪ toVisit.toFinset = M →
      (idsOf acc).toFinset = visited →
      (idsOf acc).Nodup →
      (idsOf (gatherGroup pieces fuel visited toVisit acc)).toFinset = M
        ∧ (idsOf (gatherGroup pieces fuel visited toVisit acc)).Nodup := by
  intro fuel
  induction fuel with
  | zero =>
    intro visited toVisit acc hfuel hvM htM huni hacc hnd2
    have hlen : toVisit.length = 0 := by
      unfold gatherMeasure at hfuel
      omega
    have htv : toVisit = [] := List.length_eq_zero.mp hlen
    subst htv
    simp only [gatherGroup]
    refine ⟨?_, hnd2⟩
    rw [hacc]
    simpa using huni
  | succ fuel ih =>
    intro visited toVisit acc hfuel hvM htM huni hacc hnd2
    cases toVisit with
    | nil =>
      simp only [gatherGroup]
      refine ⟨?_, hnd2⟩
      rw [hacc]
      simpa using huni
    | cons pieceId rest =>
      by_cases hvis : pieceId ∈ visited
      · have hstep : gatherGroup pieces (fuel + 1) visited (pieceId :: rest) acc
            = gatherGroup pieces fuel visited rest acc := by
          simp [gatherGroup, hvis]
        rw [hstep]
        refine ih visited rest acc ?_ hvM (fun i hi => htM i (by simp [hi])) ?_ hacc hnd2
        · have := gatherMeasure_skip pieces visited pieceId rest
          omega
        · apply Finset.Subset.antisymm
          · rw [← huni]
            refine Finset.union_subset Finset.subset_union_left ?_
            intro j hj
            refine Finset.mem_union_right _ ?_
            simp only [List.toFinset_cons, Finset.mem_insert]
            exact Or.inr hj
          · intro j hj
            rw [← huni] at hj
            rcases Finset.mem_union.mp hj with hj2 | hj2
            · exact Finset.mem_union_left _ hj2
            · simp only [List.toFinset_cons, Finset.mem_insert] at hj2
              rcases hj2 with rfl | hj2
              · exact Finset.mem_union_left _ hvis
              · exact Finset.mem_union_right _ hj2
      · have hidM : pieceId ∈ M := htM pieceId (by simp)
        obtain ⟨pm, hpm, hpmid, hpmconn⟩ := hM pieceId hidM
        have hfind : pieces.find? (fun p => p.id == pieceId) = some pm :=
          find?_id_eq_some hnd hpm hpmid
        have hstep : gatherGroup pieces (fuel + 1) visited (pieceId :: rest) acc
            = gatherGroup pieces fuel (insert pieceId visited)
              ((pm.connectedPieces.filter (fun i => i ∉ insert pieceId visited)) ++ rest)
              (acc ++ [pm]) := by
          simp [gatherGroup, hvis, hfind]
        rw [hstep]
        refine ih _ _ _ ?_ ?_ ?_ ?_ ?_ ?_
        · have := gatherMeasure_found pieces visited pieceId rest pm hvis hpm
          omega
        · intro j hj
          rcases Finset.mem_insert.mp hj with rfl | hj2
          · exact hidM
          · exact hvM hj2
        · intro i hi
          rcases List.mem_append.mp hi with hi2 | hi2
          · have h1 : i ∈ pm.connectedPieces := List.mem_of_mem_filter hi2
            have h2 : i ∈ M.erase pieceId := by
              rw [← hpmconn]
              exact List.mem_toFinset.mpr h1
            exact Finset.mem_of_mem_erase h2
          · exact htM i (by simp [hi2])
        · apply Finset.Subset.antisymm
          · intro j hj
            rcases Finset.mem_union.mp hj with hj2 | hj2
            · rcases Finset.mem_insert.mp hj2 with rfl | hj3
              · exact hidM
              · exact hvM hj3
            · rw [List.toFinset_append, Finset.mem_union] at hj2
              rcases hj2 with hj3 | hj3
              · have h1 : j ∈ pm.connectedPieces :=
                  List.mem_of_mem_filter (List.mem_toFinset.mp hj3)
                have h2 : j ∈ M.erase pieceId := by
                  rw [← hpmconn]
                  exact List.mem_toFinset.mpr h1
                exact Finset.mem_of_mem_erase h2
              · exact htM j (List.mem_cons_of_mem _ (List.mem_toFinset.mp hj3))
          · intro j hj
            have hj2 : j ∈ visited ∪ (pieceId :: rest).toFinset := huni ▸ hj
            rcases Finset.mem_union.mp hj2 with hj3 | hj3
            · exact Finset.mem_union_left _ (Finset.mem_insert_of_mem hj3)
            · simp only [List.toFinset_cons, Finset.mem_insert] at hj3
              rcases hj3 with rfl | hj3
              · exact Finset.mem_union_left _ (Finset.mem_insert_self _ _)
              · refine Finset.mem_union_right _ ?_
                rw [List.toFinset_append, Finset.mem_union]
                exact Or.inr hj3
        · ext j
          constructor
          · intro hj
            rw [List.mem_toFinset] at hj
            simp only [idsOf, List.map_append, List.mem_append, List.map_cons,
              List.map_nil, List.mem_cons, List.not_mem_nil, or_false] at hj
            rcases hj with hj2 | hj2
            · exact Finset.mem_insert_of_mem
                (by rw [← hacc, List.mem_toFinset]; exact hj2)
            · rw [hj2, hpmid]
              exact Finset.mem_insert_self _ _
          · intro hj
            rw [List.mem_toFinset]
            simp only [idsOf, List.map_append, List.mem_append, List.map_cons,
              List.map_nil, List.mem_cons, List.not_mem_nil, or_false]
            rcases Finset.mem_insert.mp hj with rfl | hj2
            · right
              rw [hpmid]
            · left
              rw [← hacc, List.mem_toFinset] at hj2
              exact hj2
        · simp only [idsOf, List.map_append, List.map_cons, List.map_nil]
          rw [List.nodup_append]
          refine ⟨by simpa [idsOf] using hnd2, List.nodup_singleton _, ?_⟩
          intro a ha hb
          rw [List.mem_singleton] at hb
          subst hb
          rw [hpmid] at ha
          exact hvis (hacc ▸ List.mem_toFinset.mpr ha)

/-- The traversal result extends the accumulator, stays inside the board,
and is closed under the recorded adjacency: a stored neighbor id of any
collected piece that names a board piece has that piece collected too. -/
theorem gather_closed (pieces : List PuzzlePiece)
    (hnd : (idsOf pieces).Nodup) :
    ∀ (fuel : ℕ) (visited : Finset ℕ) (toVisit : List ℕ) (acc : List PuzzlePiece),
      gatherMeasure pieces visited toVisit ≤ fuel →
      (∀ r ∈ acc, r ∈ pieces) →
      (∀ r ∈ acc, ∀ i ∈ r.connectedPieces, i ∈ visited ∨ i ∈ toVisit) →
      (∀ i ∈ visited, ∀ q, q ∈ pieces → q.id = i → q ∈ acc) →
      (∀ r ∈ acc, r ∈ gatherGroup pieces fuel visited toVisit acc)
        ∧ (∀ r ∈ gatherGroup pieces fuel visited toVisit acc, r ∈ pieces)
        ∧ (∀ r ∈ gatherGroup pieces fuel visited toVisit acc, ∀ q, q ∈ pieces →
            q.id ∈ r.connectedPieces → q ∈ gatherGroup pieces fuel visited toVisit acc) := by
  intro fuel
  induction fuel with
  | zero =>
    intro visited toVisit acc hfuel haccP hconn hvisacc
    have hlen : toVisit.length = 0 := by
      unfold gatherMeasure at hfuel
      omega
    have htv : toVisit = [] := List.length_eq_zero.mp hlen
    subst htv
    simp only [gatherGroup]
    refine ⟨fun r hr => hr, haccP, ?_⟩
    intro r hr q hq hqid
    rcases hconn r hr q.id hqid with h | h
    · exact hvisacc q.id h q hq rfl
    · cases h
  | succ fuel ih =>
    intro visited toVisit acc hfuel haccP hconn hvisacc
    cases toVisit with
    | nil =>
      simp only [gatherGroup]
      refine ⟨fun r hr => hr, haccP, ?_⟩
      intro r hr q hq hqid
      rcases hconn r hr q.id hqid with h | h
      · exact hvisacc q.id h q hq rfl
      · cases h
    | cons pieceId rest =>
      by_cases hvis : pieceId ∈ visited
      · have hstep : gatherGroup pieces (fuel + 1) visited (pieceId :: rest) acc
            = gatherGroup pieces fuel visited rest acc := by
          simp [gatherGroup, hvis]
        rw [hstep]
        refine ih visited rest acc ?_ haccP ?_ hvisacc
        · have := gatherMeasure_skip pieces visited pieceId rest
          omega
        · intro r hr i hi
          rcases hconn r hr i hi with h | h
          · exact Or.inl h
          · rcases List.mem_cons.mp h with rfl | h2
            · exact Or.inl hvis
            · exact Or.inr h2
      · cases hfind : pieces.find? (fun p => p.id == pieceId) with
        | none =>
          have hstep : gatherGroup pieces (fuel + 1) visited (pieceId :: rest) acc
              = gatherGroup pieces fuel (insert pieceId visited) rest acc := by
            simp [gatherGroup, hvis, hfind]
          rw [hstep]
          refine ih _ rest acc ?_ haccP ?_ ?_
          · have := gatherMeasure_none pieces visited pieceId rest
            omega
          · intro r hr i hi
            rcases hconn r hr i hi with h | h
            · exact Or.inl (Finset.mem_insert_of_mem h)
            · rcases List.mem_cons.mp h with rfl | h2
              · exact Or.inl (Finset.mem_insert_self _ _)
              · exact Or.inr h2
          · intro i hi q hq hqid
            rcases Finset.mem_insert.mp hi with rfl | hi2
            · exfalso
              have := List.find?_eq_none.mp hfind q hq
              simp [hqid] at this
            · exact hvisacc i hi2 q hq hqid
        | some cp =>
          obtain ⟨hcp, hcpid⟩ := find?_id_mem_and_id hfind
          have hstep : gatherGroup pieces (fuel + 1) visited (pieceId :: rest) acc
              = gatherGroup pieces fuel (insert pieceId visited)
                ((cp.connectedPieces.filter (fun i => i ∉ insert pieceId visited)) ++ rest)
                (acc ++ [cp]) := by
            simp [gatherGroup, hvis, hfind]
          rw [hstep]
          have hr := ih (insert pieceId visited)
            ((cp.connectedPieces.filter (fun i => i ∉ insert pieceId visited)) ++ rest)
            (acc ++ [cp]) ?_ ?_ ?_ ?_
          · exact ⟨fun r hrr => hr.1 r (List.mem_append_left _ hrr), hr.2.1, hr.2.2⟩
          · have := gatherMeasure_found pieces visited pieceId rest cp hvis hcp
            omega
          · intro r hrr
            rcases List.mem_append.mp hrr with h | h
            · exact haccP r h
            · rw [List.mem_singleton] at h
              subst h
              exact hcp
          · intro r hrr i hi
            rcases List.mem_append.mp hrr with h | h
            · rcases hconn r h i hi with h2 | h2
              · exact Or.inl (Finset.mem_insert_of_mem h2)
              · rcases List.mem_cons.mp h2 with rfl | h3
                · exact Or.inl (Finset.mem_insert_self _ _)
                · exact Or.inr (List.mem_append_right _ h3)
            · rw [List.mem_singleton] at h
              subst h
              by_cases hiv : i ∈ insert pieceId visited
              · exact Or.inl hiv
              · refine Or.inr (List.mem_append_left _ ?_)
                exact List.mem_filter.mpr ⟨hi, by simpa using hiv⟩
          · intro i hi q hq hqid
            rcases Finset.mem_insert.mp hi with rfl | hi2
            · have : q = cp := eq_of_mem_of_id_eq hnd hq hcp (hqid.trans hcpid.symm)
              subst this
              exact List.mem_append_right _ (List.mem_singleton.mpr rfl)
            · exact List.mem_append_left _ (hvisacc i hi2 q hq hqid)

/-- Clique form of the traversal: starting from a member of a clique id set
M, the group ids are exactly M, and the group size is the size of M. -/
theorem group_clique (pieces : List PuzzlePiece) (start : PuzzlePiece)
    (M : Finset ℕ) (hnd : (idsOf pieces).Nodup)
    (hM : ∀ i ∈ M, ∃ p, p ∈ pieces ∧ p.id = i
      ∧ p.connectedPieces.toFinset = M.erase i)
    (hstart : start ∈ pieces) (hsid : start.id ∈ M)
    (hsconn : start.connectedPieces.toFinset = M.erase start.id) :
    groupIds pieces start = M
      ∧ (idsOf (getAllPiecesInGroup pieces start)).Nodup
      ∧ (getAllPiecesInGroup pieces start).length = M.card := by
  obtain ⟨h1, h2⟩ := gather_invariant pieces hnd M hM (gatherFuel pieces start)
    {start.id} start.connectedPieces [start] (gatherFuel_ge pieces start)
    (Finset.singleton_subset_iff.mpr hsid)
    (by
      intro i hi
      have : i ∈ M.erase start.id := hsconn ▸ List.mem_toFinset.mpr hi
      exact Finset.mem_of_mem_erase this)
    (by
      rw [hsconn, ← Finset.insert_eq, Finset.insert_erase hsid])
    (by simp [idsOf])
    (by simp [idsOf])
  have hEq : getAllPiecesInGroup pieces start
      = gatherGroup pieces (gatherFuel pieces start) {start.id}
        start.connectedPieces [start] := rfl
  rw [← hEq] at h1 h2
  refine ⟨h1, h2, ?_⟩
  have h3 : (idsOf (getAllPiecesInGroup pieces start)).toFinset.card = M.card := by
    rw [h1]
  rw [List.toFinset_card_of_nodup h2] at h3
  have h4 : (idsOf (getAllPiecesInGroup pieces start)).length
      = (getAllPiecesInGroup pieces start).length := List.length_map _ _
  omega

/-- The start piece belongs to its own group, the group stays inside the
board, and the group is closed under recorded adjacency. -/
theorem group_start_mem_closed (pieces : List PuzzlePiece) (start : PuzzlePiece)
    (hnd : (idsOf pieces).Nodup) (hstart : start ∈ pieces) :
    start ∈ getAllPiecesInGroup pieces start
      ∧ (∀ r ∈ getAllPiecesInGroup pieces start, r ∈ pieces)
      ∧ (∀ r ∈ getAllPiecesInGroup pieces start, ∀ q, q ∈ pieces →
          q.id ∈ r.connectedPieces → q ∈ getAllPiecesInGroup pieces start) := by
  obtain ⟨h1, h2, h3⟩ := gather_closed pieces hnd (gatherFuel pieces start)
    {start.id} start.connectedPieces [start] (gatherFuel_ge pieces start)
    (by
      intro r hr
      rw [List.mem_singleton] at hr
      subst hr
      exact hstart)
    (by
      intro r hr i hi
      rw [List.mem_singleton] at hr
      subst hr
      exact Or.inr hi)
    (by
      intro i hi q hq hqid
      rw [Finset.mem_singleton] at hi
      subst hi
      have hqs : q = start := eq_of_mem_of_id_eq hnd hq hstart hqid
      subst hqs
      exact List.mem_singleton.mpr rfl)
  exact ⟨h1 start (List.mem_singleton.mpr rfl), h2, h3⟩

/-- Membership in the add method of the Set model. -/
theorem mem_addId {s : List ℕ} {a x : ℕ} : x ∈ addId s a ↔ x ∈ s ∨ x = a := by
  unfold addId
  by_cases h : a ∈ s
  · rw [if_pos h]
    constructor
    · exact Or.inl
    · rintro (h2 | rfl)
      · exact h2
      · exact h
  · rw [if_neg h]
    simp [List.mem_append]

/-- Membership in a fold of Set adds. -/
theorem mem_foldl_addId (l : List ℕ) :
    ∀ (init : List ℕ) (x : ℕ), x ∈ l.foldl addId init ↔ x ∈ init ∨ x ∈ l := by
  induction l with
  | nil => simp
  | cons a t ih =>
    intro init x
    simp only [List.foldl_cons]
    rw [ih, mem_addId, List.mem_cons]
    tauto

/-- The Set add keeps the list duplicate-free. -/
theorem nodup_addId {s : List ℕ} (h : s.Nodup) (a : ℕ) : (addId s a).Nodup := by
  unfold addId
  by_cases h2 : a ∈ s
  · rw [if_pos h2]
    exact h
  · rw [if_neg h2, List.nodup_append]
    refine ⟨h, List.nodup_singleton _, ?_⟩
    intro x hx hxa
    rw [List.mem_singleton] at hxa
    subst hxa
    exact h2 hx

/-- A fold of Set adds from a duplicate-free start is duplicate-free. -/
theorem nodup_foldl_addId (l : List ℕ) :
    ∀ init : List ℕ, init.Nodup → (l.foldl addId init).Nodup := by
  induction l with
  | nil => intro init h; exact h
  | cons a t ih =>
    intro init h
    simp only [List.foldl_cons]
    exact ih _ (nodup_addId h a)

/-- Membership in the merged id set. -/
theorem mem_mergedIds {pieces : List PuzzlePiece} {p1 p2 : PuzzlePiece} {x : ℕ} :
    x ∈ mergedIds pieces p1 p2
      ↔ x ∈ idsOf (getAllPiecesInGroup pieces p1 ++ getAllPiecesInGroup pieces p2) := by
  unfold mergedIds
  rw [mem_foldl_addId]
  simp

/-- The merged id set is duplicate-free. -/
theorem nodup_mergedIds (pieces : List PuzzlePiece) (p1 p2 : PuzzlePiece) :
    (mergedIds pieces p1 p2).Nodup :=
  nodup_foldl_addId _ _ List.nodup_nil

/-- Erase commutes with toFinset on a duplicate-free list. -/
theorem toFinset_erase_of_nodup {l : List ℕ} (h : l.Nodup) (i : ℕ) :
    (l.erase i).toFinset = l.toFinset.erase i := by
  ext x
  rw [List.mem_toFinset, h.mem_erase_iff, Finset.mem_erase, List.mem_toFinset]

/-- mergeGroups keeps the id list unchanged. -/
theorem mergeGroups_idsOf (pieces : List PuzzlePiece) (p1 p2 : PuzzlePiece) :
    idsOf (mergeGroups pieces p1 p2) = idsOf pieces := by
  unfold mergeGroups idsOf
  rw [List.map_map]
  apply List.map_congr_left
  intro p _
  simp only [Function.comp_apply]
  by_cases h : p.id ∈ mergedIds pieces p1 p2
  · rw [if_pos h]
  · rw [if_neg h]

/-- connectPieces keeps the id list unchanged. -/
theorem connectPieces_idsOf (pieces : List PuzzlePiece) (aId bId : ℕ) :
    idsOf (connectPieces pieces aId bId) = idsOf pieces := by
  unfold connectPieces idsOf
  rw [List.map_map]
  apply List.map_congr_left
  intro p _
  simp only [Function.comp_apply]
  by_cases h1 : p.id = aId
  · rw [if_pos h1]
  · rw [if_neg h1]
    by_cases h2 : p.id = bId
    · rw [if_pos h2]
    · rw [if_neg h2]

/-- A loop pass over already visited pieces changes nothing. -/
theorem largestLoop_skip (pieces : List PuzzlePiece) :
    ∀ (l : List PuzzlePiece) (visited : Finset ℕ) (n : ℕ),
      (∀ p ∈ l, p.id ∈ visited) → largestLoop pieces l visited n = n := by
  intro l
  induction l with
  | nil => intro visited n _; rfl
  | cons a t ih =>
    intro visited n h
    have ha : a.id ∈ visited := h a (List.mem_cons_self _ _)
    simp only [largestLoop, if_pos ha]
    exact ih visited n (fun p hp => h p (List.mem_cons_of_mem _ hp))

/-- C7: when every piece carries the full clique connectivity (the state
reached once every adjacent pair has been connected and merged), the pair
handed to the progress callback is (N, N) for an N piece puzzle: the
largest cluster is the whole board. -/
theorem updateProgress_completion (pieces : List PuzzlePiece)
    (hne : pieces ≠ [])
    (hnd : (idsOf pieces).Nodup)
    (hfull : ∀ p ∈ pieces,
      p.connectedPieces.toFinset = ((idsOf pieces).toFinset).erase p.id) :
    updateProgress pieces = (pieces.length, pieces.length) := by
  have hM : ∀ i ∈ (idsOf pieces).toFinset, ∃ p, p ∈ pieces ∧ p.id = i
      ∧ p.connectedPieces.toFinset = ((idsOf pieces).toFinset).erase i := by
    intro i hi
    rw [List.mem_toFinset] at hi
    obtain ⟨p, hp, hpid⟩ := List.mem_map.mp hi
    exact ⟨p, hp, hpid, by rw [← hpid]; exact hfull p hp⟩
  cases pieces with
  | nil => cases hne rfl
  | cons p0 rest =>
    have hp0 : p0 ∈ p0 :: rest := List.mem_cons_self _ _
    obtain ⟨hg1, hg2, hg3⟩ := group_clique (p0 :: rest) p0
      ((idsOf (p0 :: rest)).toFinset) hnd hM hp0
      (by
        rw [List.mem_toFinset]
        exact List.mem_map_of_mem (fun r => r.id) hp0)
      (hfull p0 hp0)
    have hcard : ((idsOf (p0 :: rest)).toFinset).card = (p0 :: rest).length := by
      rw [List.toFinset_card_of_nodup hnd]
      exact List.length_map _ _
    have hlen : (getAllPiecesInGroup (p0 :: rest) p0).length = (p0 :: rest).length := by
      rw [hg3, hcard]
    have hskip : ∀ p ∈ rest,
        p.id ∈ (∅ : Finset ℕ) ∪ (idsOf (getAllPiecesInGroup (p0 :: rest) p0)).toFinset := by
      intro p hp
      rw [Finset.empty_union]
      have : groupIds (p0 :: rest) p0 = (idsOf (p0 :: rest)).toFinset := hg1
      unfold groupIds at this
      rw [this, List.mem_toFinset]
      exact List.mem_map_of_mem (fun r => r.id) (List.mem_cons_of_mem _ hp)
    have hmain : getLargestClusterSize (p0 :: rest) = (p0 :: rest).length := by
      unfold getLargestClusterSize
      have h0 : p0.id ∉ (∅ : Finset ℕ) := Finset.not_mem_empty _
      simp only [largestLoop, if_neg h0]
      rw [largestLoop_skip _ rest _ _ hskip, hlen]
      simp
    unfold updateProgress
    rw [hmain]

/-- Concrete instance of updateProgress_completion on a two piece clique. -/
theorem updateProgress_completion_witness :
    (demoPieces ≠ [] ∧ (idsOf demoPieces).Nodup
        ∧ (∀ p ∈ demoPieces,
          p.connectedPieces.toFinset = ((idsOf demoPieces).toFinset).erase p.id))
      ∧ updateProgress demoPieces = (demoPieces.length, demoPieces.length) :=
  ⟨⟨by decide, by decide, by decide⟩,
    updateProgress_completion demoPieces (by decide) (by decide) (by decide)⟩

/-- The traversal result contains the accumulator. -/
theorem gather_acc_sub (pieces : List PuzzlePiece) :
    ∀ (fuel : ℕ) (visited : Finset ℕ) (toVisit : List ℕ) (acc : List PuzzlePiece),
      ∀ r ∈ acc, r ∈ gatherGroup pieces fuel visited toVisit acc := by
  intro fuel
  induction fuel with
  | zero =>
    intro visited toVisit acc r hr
    cases toVisit with
    | nil => simpa [gatherGroup] using hr
    | cons pieceId rest => simpa [gatherGroup] using hr
  | succ fuel ih =>
    intro visited toVisit acc r hr
    cases toVisit with
    | nil => simpa [gatherGroup] using hr
    | cons pieceId rest =>
      by_cases hvis : pieceId ∈ visited
      · have hstep : gatherGroup pieces (fuel + 1) visited (pieceId :: rest) acc
            = gatherGroup pieces fuel visited rest acc := by
          simp [gatherGroup, hvis]
        rw [hstep]
        exact ih visited rest acc r hr
      · cases hfind : pieces.find? (fun p => p.id == pieceId) with
        | none =>
          have hstep : gatherGroup pieces (fuel + 1) visited (pieceId :: rest) acc
              = gatherGroup pieces fuel (insert pieceId visited) rest acc := by
            simp [gatherGroup, hvis, hfind]
          rw [hstep]
          exact ih _ rest acc r hr
        | some cp =>
          have hstep : gatherGroup pieces (fuel + 1) visited (pieceId :: rest) acc
              = gatherGroup pieces fuel (insert pieceId visited)
                ((cp.connectedPieces.filter (fun i => i ∉ insert pieceId visited)) ++ rest)
                (acc ++ [cp]) := by
            simp [gatherGroup, hvis, hfind]
          rw [hstep]
          exact ih _ _ _ r (List.mem_append_left _ hr)

/-- A piece always belongs to its own computed group. -/
theorem start_mem_group (pieces : List PuzzlePiece) (piece : PuzzlePiece) :
    piece ∈ getAllPiecesInGroup pieces piece :=
  gather_acc_sub pieces (gatherFuel pieces piece) {piece.id}
    piece.connectedPieces [piece] piece (List.mem_singleton.mpr rfl)

/-- Both start ids belong to the merged id set. -/
theorem start_ids_mem_mergedIds (pieces : List PuzzlePiece) (p1 p2 : PuzzlePiece) :
    p1.id ∈ mergedIds pieces p1 p2 ∧ p2.id ∈ mergedIds pieces p1 p2 := by
  constructor
  · rw [mem_mergedIds]
    exact List.mem_map_of_mem (fun r => r.id)
      (List.mem_append_left _ (start_mem_group pieces p1))
  · rw [mem_mergedIds]
    exact List.mem_map_of_mem (fun r => r.id)
      (List.mem_append_right _ (start_mem_group pieces p2))

/-- The merged id set is closed under the connectivity of the old state:
a stored neighbor of a merged member is merged too. -/
theorem mergedIds_closed (pieces : List PuzzlePiece) (p1 p2 : PuzzlePiece)
    (hnd : (idsOf pieces).Nodup) (hp1 : p1 ∈ pieces) (hp2 : p2 ∈ pieces) :
    ∀ u v, u ∈ pieces → v ∈ pieces → u.id ∈ mergedIds pieces p1 p2 →
      v.id ∈ u.connectedPieces → v.id ∈ mergedIds pieces p1 p2 := by
  intro u v hu hv huM hvconn
  rw [mem_mergedIds] at huM ⊢
  obtain ⟨m, hm, hmid⟩ := List.mem_map.mp huM
  have hmP : m ∈ pieces := by
    rcases List.mem_append.mp hm with h | h
    · exact (group_start_mem_closed pieces p1 hnd hp1).2.1 m h
    · exact (group_start_mem_closed pieces p2 hnd hp2).2.1 m h
  have hmu : m = u := eq_of_mem_of_id_eq hnd hmP hu hmid
  subst hmu
  rcases List.mem_append.mp hm with h | h
  · have hvin := (group_start_mem_closed pieces p1 hnd hp1).2.2 m h v hv hvconn
    exact List.mem_map_of_mem (fun r => r.id) (List.mem_append_left _ hvin)
  · have hvin := (group_start_mem_closed pieces p2 hnd hp2).2.2 m h v hv hvconn
    exact List.mem_map_of_mem (fun r => r.id) (List.mem_append_right _ hvin)

/-- Every merged id names a member of the new state carrying the full
clique connectivity. -/
theorem mergeGroups_clique (pieces : List PuzzlePiece) (p1 p2 : PuzzlePiece)
    (hnd : (idsOf pieces).Nodup) (hp1 : p1 ∈ pieces) (hp2 : p2 ∈ pieces) :
    ∀ i ∈ (mergedIds pieces p1 p2).toFinset,
      ∃ q, q ∈ mergeGroups pieces p1 p2 ∧ q.id = i
        ∧ q.connectedPieces.toFinset = ((mergedIds pieces p1 p2).toFinset).erase i := by
  intro i hi
  rw [List.mem_toFinset, mem_mergedIds] at hi
  obtain ⟨m, hm, hmid⟩ := List.mem_map.mp hi
  have hmP : m ∈ pieces := by
    rcases List.mem_append.mp hm with h | h
    · exact (group_start_mem_closed pieces p1 hnd hp1).2.1 m h
    · exact (group_start_mem_closed pieces p2 hnd hp2).2.1 m h
  have hmmem : m.id ∈ mergedIds pieces p1 p2 := by
    rw [mem_mergedIds]
    exact List.mem_map_of_mem (fun r => r.id) hm
  refine ⟨{ m with connectedPieces := (mergedIds pieces p1 p2).erase m.id }, ?_, hmid, ?_⟩
  · unfold mergeGroups
    refine List.mem_map.mpr ⟨m, hmP, ?_⟩
    rw [if_pos hmmem]
  · show ((mergedIds pieces p1 p2).erase m.id).toFinset = _
    rw [toFinset_erase_of_nodup (nodup_mergedIds pieces p1 p2), hmid]

/-- Every piece of the merged state comes from a board piece, either with
its connected set replaced by the clique or untouched. -/
theorem mergeGroups_mem_cases (pieces : List PuzzlePiece) (p1 p2 : PuzzlePiece) :
    ∀ r ∈ mergeGroups pieces p1 p2, ∃ u, u ∈ pieces ∧
      ((u.id ∈ mergedIds pieces p1 p2
          ∧ r = { u with connectedPieces := (mergedIds pieces p1 p2).erase u.id })
        ∨ (u.id ∉ mergedIds pieces p1 p2 ∧ r = u)) := by
  intro r hr
  obtain ⟨u, hu, heq⟩ := List.mem_map.mp hr
  subst heq
  refine ⟨u, hu, ?_⟩
  by_cases h : u.id ∈ mergedIds pieces p1 p2
  · left
    exact ⟨h, by simp [h]⟩
  · right
    exact ⟨h, by simp [h]⟩

/-- mergeGroups preserves the symmetry of the connectivity relation. -/
theorem mergeGroups_symm (pieces : List PuzzlePiece) (p1 p2 : PuzzlePiece)
    (hnd : (idsOf pieces).Nodup) (hp1 : p1 ∈ pieces) (hp2 : p2 ∈ pieces)
    (hsym : SymmConn pieces) :
    SymmConn (mergeGroups pieces p1 p2) := by
  intro pp hpp qq hqq
  obtain ⟨u, hu, hcu⟩ := mergeGroups_mem_cases pieces p1 p2 pp hpp
  obtain ⟨v, hv, hcv⟩ := mergeGroups_mem_cases pieces p1 p2 qq hqq
  rcases hcu with ⟨huM, hequ⟩ | ⟨huM, hequ⟩ <;>
      rcases hcv with ⟨hvM, heqv⟩ | ⟨hvM, heqv⟩ <;>
    rw [hequ, heqv]
  · show v.id ∈ (mergedIds pieces p1 p2).erase u.id
      ↔ u.id ∈ (mergedIds pieces p1 p2).erase v.id
    rw [(nodup_mergedIds pieces p1 p2).mem_erase_iff,
      (nodup_mergedIds pieces p1 p2).mem_erase_iff]
    constructor
    · rintro ⟨h1, _⟩
      exact ⟨h1.symm, huM⟩
    · rintro ⟨h1, _⟩
      exact ⟨h1.symm, hvM⟩
  · show v.id ∈ (mergedIds pieces p1 p2).erase u.id ↔ u.id ∈ v.connectedPieces
    rw [(nodup_mergedIds pieces p1 p2).mem_erase_iff]
    constructor
    · rintro ⟨_, h2⟩
      exact absurd h2 hvM
    · intro h2
      have h3 : v.id ∈ u.connectedPieces := (hsym u hu v hv).mpr h2
      exact absurd (mergedIds_closed pieces p1 p2 hnd hp1 hp2 u v hu hv huM h3) hvM
  · show v.id ∈ u.connectedPieces ↔ u.id ∈ (mergedIds pieces p1 p2).erase v.id
    rw [(nodup_mergedIds pieces p1 p2).mem_erase_iff]
    constructor
    · intro h2
      have h3 : u.id ∈ v.connectedPieces := (hsym u hu v hv).mp h2
      exact absurd (mergedIds_closed pieces p1 p2 hnd hp1 hp2 v u hv hu hvM h3) huM
    · rintro ⟨_, h2⟩
      exact absurd h2 huM
  · exact hsym u hu v hv

/-- The image of a board piece under connectPieces. -/
theorem connectPieces_image (pieces : List PuzzlePiece) (aId bId : ℕ) :
    ∀ u ∈ pieces,
      (if u.id = aId then { u with connectedPieces := addId u.connectedPieces bId }
        else if u.id = bId then { u with connectedPieces := addId u.connectedPieces aId }
        else u) ∈ connectPieces pieces aId bId := by
  intro u hu
  exact List.mem_map.mpr ⟨u, hu, rfl⟩

/-- Every piece of the connect state comes from a board piece in one of the
three branch forms. -/
theorem connectPieces_mem_cases (pieces : List PuzzlePiece) (aId bId : ℕ) :
    ∀ r ∈ connectPieces pieces aId bId, ∃ u, u ∈ pieces ∧
      ((u.id = aId ∧ r = { u with connectedPieces := addId u.connectedPieces bId })
        ∨ (u.id ≠ aId ∧ u.id = bId
            ∧ r = { u with connectedPieces := addId u.connectedPieces aId })
        ∨ (u.id ≠ aId ∧ u.id ≠ bId ∧ r = u)) := by
  intro r hr
  obtain ⟨u, hu, heq⟩ := List.mem_map.mp hr
  subst heq
  refine ⟨u, hu, ?_⟩
  by_cases h1 : u.id = aId
  · left
    exact ⟨h1, by rw [if_pos h1]⟩
  · by_cases h2 : u.id = bId
    · right; left
      exact ⟨h1, h2, by rw [if_neg h1, if_pos h2]⟩
    · right; right
      exact ⟨h1, h2, by rw [if_neg h1, if_neg h2]⟩

/-- Immediately after the two add calls, each of the two pieces holds the
id of the other in its connected set. -/
theorem connectPieces_immediate (pieces : List PuzzlePiece) (aId bId : ℕ) :
    ∀ r ∈ connectPieces pieces aId bId,
      (r.id = aId → bId ∈ r.connectedPieces)
        ∧ (r.id = bId → aId ∈ r.connectedPieces) := by
  intro r hr
  obtain ⟨u, _, hcase⟩ := connectPieces_mem_cases pieces aId bId r hr
  rcases hcase with ⟨h1, rfl⟩ | ⟨h1, h2, rfl⟩ | ⟨h1, h2, rfl⟩
  · constructor
    · intro _
      exact mem_addId.mpr (Or.inr rfl)
    · intro hb
      have hba : bId = aId := by
        have : u.id = bId := hb
        rw [h1] at this
        exact this.symm
      exact mem_addId.mpr (Or.inr hba.symm)
  · constructor
    · intro ha
      exact absurd ha h1
    · intro _
      exact mem_addId.mpr (Or.inr rfl)
  · constructor
    · intro ha
      exact absurd ha h1
    · intro hb
      exact absurd hb h2

/-- connectPieces preserves symmetry of the connectivity relation. -/
theorem connectPieces_symm (pieces : List PuzzlePiece) (aId bId : ℕ)
    (hnd : (idsOf pieces).Nodup) (hsym : SymmConn pieces) :
    SymmConn (connectPieces pieces aId bId) := by
  intro pp hpp qq hqq
  obtain ⟨u, hu, hcu⟩ := connectPieces_mem_cases pieces aId bId pp hpp
  obtain ⟨v, hv, hcv⟩ := connectPieces_mem_cases pieces aId bId qq hqq
  rcases hcu with ⟨hua, hequ⟩ | ⟨hua, hub, hequ⟩ | ⟨hua, hub, hequ⟩ <;>
      rcases hcv with ⟨hva, heqv⟩ | ⟨hva, hvb, heqv⟩ | ⟨hva, hvb, heqv⟩ <;>
    rw [hequ, heqv]
  · show v.id ∈ addId u.connectedPieces bId ↔ u.id ∈ addId v.connectedPieces bId
    have huv : u = v := eq_of_mem_of_id_eq hnd hu hv (hua.trans hva.symm)
    subst huv
    exact Iff.rfl
  · show v.id ∈ addId u.connectedPieces bId ↔ u.id ∈ addId v.connectedPieces aId
    constructor
    · intro _
      exact mem_addId.mpr (Or.inr hua)
    · intro _
      exact mem_addId.mpr (Or.inr hvb)
  · show v.id ∈ addId u.connectedPieces bId ↔ u.id ∈ v.connectedPieces
    rw [mem_addId]
    constructor
    · rintro (h | h)
      · exact (hsym u hu v hv).mp h
      · exact absurd h hvb
    · intro h
      exact Or.inl ((hsym u hu v hv).mpr h)
  · show v.id ∈ addId u.connectedPieces aId ↔ u.id ∈ addId v.connectedPieces bId
    constructor
    · intro _
      exact mem_addId.mpr (Or.inr hub)
    · intro _
      exact mem_addId.mpr (Or.inr hva)
  · show v.id ∈ addId u.connectedPieces aId ↔ u.id ∈ addId v.connectedPieces aId
    have huv : u = v := eq_of_mem_of_id_eq hnd hu hv (hub.trans hvb.symm)
    subst huv
    exact Iff.rfl
  · show v.id ∈ addId u.connectedPieces aId ↔ u.id ∈ v.connectedPieces
    rw [mem_addId]
    constructor
    · rintro (h | h)
      · exact (hsym u hu v hv).mp h
      · exact absurd h hva
    · intro h
      exact Or.inl ((hsym u hu v hv).mpr h)
  · show v.id ∈ u.connectedPieces ↔ u.id ∈ addId v.connectedPieces bId
    rw [mem_addId]
    constructor
    · intro h
      exact Or.inl ((hsym u hu v hv).mp h)
    · rintro (h | h)
      · exact (hsym u hu v hv).mpr h
      · exact absurd h hub
  · show v.id ∈ u.connectedPieces ↔ u.id ∈ addId v.connectedPieces aId
    rw [mem_addId]
    constructor
    · intro h
      exact Or.inl ((hsym u hu v hv).mp h)
    · rintro (h | h)
      · exact (hsym u hu v hv).mpr h
      · exact absurd h hua
  · exact hsym u hu v hv

/-- With both endpoint pieces on the board and distinct ids, the
connect-then-merge step reduces to mergeGroups on the two updated pieces. -/
theorem connectAndMerge_eq (pieces : List PuzzlePiece) (aId bId : ℕ)
    (pa pb : PuzzlePiece) (hnd : (idsOf pieces).Nodup)
    (hpa : pa ∈ pieces) (hpaid : pa.id = aId)
    (hpb : pb ∈ pieces) (hpbid : pb.id = bId) (hab : aId ≠ bId) :
    connectAndMerge pieces aId bId
      = mergeGroups (connectPieces pieces aId bId)
          { pa with connectedPieces := addId pa.connectedPieces bId }
          { pb with connectedPieces := addId pb.connectedPieces aId } := by
  have hnd1 : (idsOf (connectPieces pieces aId bId)).Nodup := by
    rw [connectPieces_idsOf]
    exact hnd
  have hpa1 : { pa with connectedPieces := addId pa.connectedPieces bId }
      ∈ connectPieces pieces aId bId := by
    have h := connectPieces_image pieces aId bId pa hpa
    rw [if_pos hpaid] at h
    exact h
  have hpbna : ¬ pb.id = aId := by
    intro h
    exact hab (h.symm.trans hpbid)
  have hpb1 : { pb with connectedPieces := addId pb.connectedPieces aId }
      ∈ connectPieces pieces aId bId := by
    have h := connectPieces_image pieces aId bId pb hpb
    rw [if_neg hpbna, if_pos hpbid] at h
    exact h
  have hfa : (connectPieces pieces aId bId).find? (fun p => p.id == aId)
      = some { pa with connectedPieces := addId pa.connectedPieces bId } :=
    find?_id_eq_some hnd1 hpa1 hpaid
  have hfb : (connectPieces pieces aId bId).find? (fun p => p.id == bId)
      = some { pb with connectedPieces := addId pb.connectedPieces aId } :=
    find?_id_eq_some hnd1 hpb1 hpbid
  unfold connectAndMerge
  simp only [hfa, hfb]

/-- C2: connectivity stays symmetric through the connect path: right after
the two add calls each of the two pieces holds the id of the other, the
recorded relation is symmetric, and it stays symmetric after mergeGroups. -/
theorem connect_symmetry (pieces : List PuzzlePiece) (aId bId : ℕ)
    (pa pb : PuzzlePiece)
    (hnd : (idsOf pieces).Nodup)
    (hpa : pa ∈ pieces) (hpaid : pa.id = aId)
    (hpb : pb ∈ pieces) (hpbid : pb.id = bId)
    (hab : aId ≠ bId)
    (hsym : SymmConn pieces) :
    (∀ r ∈ connectPieces pieces aId bId,
        (r.id = aId → bId ∈ r.connectedPieces)
          ∧ (r.id = bId → aId ∈ r.connectedPieces))
      ∧ SymmConn (connectPieces pieces aId bId)
      ∧ SymmConn (connectAndMerge pieces aId bId) := by
  refine ⟨connectPieces_immediate pieces aId bId,
    connectPieces_symm pieces aId bId hnd hsym, ?_⟩
  rw [connectAndMerge_eq pieces aId bId pa pb hnd hpa hpaid hpb hpbid hab]
  have hnd1 : (idsOf (connectPieces pieces aId bId)).Nodup := by
    rw [connectPieces_idsOf]
    exact hnd
  have hpa1 : { pa with connectedPieces := addId pa.connectedPieces bId }
      ∈ connectPieces pieces aId bId := by
    have h := connectPieces_image pieces aId bId pa hpa
    rw [if_pos hpaid] at h
    exact h
  have hpbna : ¬ pb.id = aId := by
    intro h
    exact hab (h.symm.trans hpbid)
  have hpb1 : { pb with connectedPieces := addId pb.connectedPieces aId }
      ∈ connectPieces pieces aId bId := by
    have h := connectPieces_image pieces aId bId pb hpb
    rw [if_neg hpbna, if_pos hpbid] at h
    exact h
  exact mergeGroups_symm _ _ _ hnd1 hpa1 hpb1
    (connectPieces_symm pieces aId bId hnd hsym)

/-- Concrete instance of connect_symmetry on the three piece demo board. -/
theorem connect_symmetry_witness :
    ((idsOf demoTrio).Nodup ∧ SymmConn demoTrio ∧ (0 : ℕ) ≠ 1)
      ∧ ((∀ r ∈ connectPieces demoTrio 0 1,
            (r.id = 0 → 1 ∈ r.connectedPieces)
              ∧ (r.id = 1 → 0 ∈ r.connectedPieces))
        ∧ SymmConn (connectPieces demoTrio 0 1)
        ∧ SymmConn (connectAndMerge demoTrio 0 1)) :=
  ⟨⟨by decide, by unfold SymmConn; decide, by decide⟩,
    connect_symmetry demoTrio 0 1 (samplePiece 0 0 0 true false 0 0 [] [] 0)
      (samplePiece 1 10 0 true false 10 0 [] [] 0)
      (by decide) (by decide) (by decide) (by decide) (by decide) (by decide)
      (by unfold SymmConn; decide)⟩

/-- C1: after connecting pieces aId and bId and then bId and cId through
the pointer-up connect-and-merge path, the groups computed for the pieces
now carrying these three ids are the same id set. -/
theorem connect_transitivity (pieces : List PuzzlePiece) (aId bId cId : ℕ)
    (pa pb pc qa qb qc : PuzzlePiece)
    (hnd : (idsOf pieces).Nodup)
    (hpa : pa ∈ pieces) (hpaid : pa.id = aId)
    (hpb : pb ∈ pieces) (hpbid : pb.id = bId)
    (hpc : pc ∈ pieces) (hpcid : pc.id = cId)
    (hab : aId ≠ bId) (hbc : bId ≠ cId) (hac : aId ≠ cId)
    (hqa : qa ∈ connectTwice pieces aId bId cId) (hqaid : qa.id = aId)
    (hqb : qb ∈ connectTwice pieces aId bId cId) (hqbid : qb.id = bId)
    (hqc : qc ∈ connectTwice pieces aId bId cId) (hqcid : qc.id = cId) :
    groupIds (connectTwice pieces aId bId cId) qa
        = groupIds (connectTwice pieces aId bId cId) qb
      ∧ groupIds (connectTwice pieces aId bId cId) qb
        = groupIds (connectTwice pieces aId bId cId) qc := by
  have hstate1 := connectAndMerge_eq pieces aId bId pa pb hnd hpa hpaid hpb hpbid hab
  set s1 := connectPieces pieces aId bId with hs1def
  set pa1 : PuzzlePiece :=
    { pa with connectedPieces := addId pa.connectedPieces bId } with hpa1def
  set pb1 : PuzzlePiece :=
    { pb with connectedPieces := addId pb.connectedPieces aId } with hpb1def
  have hnd1 : (idsOf s1).Nodup := by
    rw [hs1def, connectPieces_idsOf]
    exact hnd
  have hpa1mem : pa1 ∈ s1 := by
    rw [hpa1def, hs1def]
    have h := connectPieces_image pieces aId bId pa hpa
    rw [if_pos hpaid] at h
    exact h
  have hpbna : ¬ pb.id = aId := by
    intro h
    exact hab (h.symm.trans hpbid)
  have hpb1mem : pb1 ∈ s1 := by
    rw [hpb1def, hs1def]
    have h := connectPieces_image pieces aId bId pb hpb
    rw [if_neg hpbna, if_pos hpbid] at h
    exact h
  set s1b := mergeGroups s1 pa1 pb1 with hs1bdef
  have hnd1b : (idsOf s1b).Nodup := by
    rw [hs1bdef, mergeGroups_idsOf]
    exact hnd1
  have haM1 : aId ∈ mergedIds s1 pa1 pb1 := by
    have h := (start_ids_mem_mergedIds s1 pa1 pb1).1
    rwa [show pa1.id = aId from hpaid] at h
  have hbM1 : bId ∈ mergedIds s1 pa1 pb1 := by
    have h := (start_ids_mem_mergedIds s1 pa1 pb1).2
    rwa [show pb1.id = bId from hpbid] at h
  obtain ⟨wb, hwbmem, hwbid, hwbconn⟩ :=
    mergeGroups_clique s1 pa1 pb1 hnd1 hpa1mem hpb1mem bId
      (List.mem_toFinset.mpr hbM1)
  have hcIds : cId ∈ idsOf s1b := by
    rw [hs1bdef, mergeGroups_idsOf, hs1def, connectPieces_idsOf, ← hpcid]
    exact List.mem_map_of_mem (fun r => r.id) hpc
  obtain ⟨wc, hwcmem, hwcid⟩ := List.mem_map.mp hcIds
  have hstate2 := connectAndMerge_eq s1b bId cId wb wc hnd1b hwbmem hwbid
    hwcmem hwcid hbc
  set s2 := connectPieces s1b bId cId with hs2def
  set wb2 : PuzzlePiece :=
    { wb with connectedPieces := addId wb.connectedPieces cId } with hwb2def
  set wc2 : PuzzlePiece :=
    { wc with connectedPieces := addId wc.connectedPieces bId } with hwc2def
  have hfinal : connectTwice pieces aId bId cId = mergeGroups s2 wb2 wc2 := by
    unfold connectTwice
    rw [hstate1, hstate2]
  have hnd2 : (idsOf s2).Nodup := by
    rw [hs2def, connectPieces_idsOf]
    exact hnd1b
  have hwb2mem : wb2 ∈ s2 := by
    rw [hwb2def, hs2def]
    have h := connectPieces_image s1b bId cId wb hwbmem
    rw [if_pos hwbid] at h
    exact h
  have hwcnb : ¬ wc.id = bId := by
    intro h
    exact hbc (h.symm.trans hwcid)
  have hwc2mem : wc2 ∈ s2 := by
    rw [hwc2def, hs2def]
    have h := connectPieces_image s1b bId cId wc hwcmem
    rw [if_neg hwcnb, if_pos hwcid] at h
    exact h
  have hbM2 : bId ∈ mergedIds s2 wb2 wc2 := by
    have h := (start_ids_mem_mergedIds s2 wb2 wc2).1
    rwa [show wb2.id = bId from hwbid] at h
  have hcM2 : cId ∈ mergedIds s2 wb2 wc2 := by
    have h := (start_ids_mem_mergedIds s2 wb2 wc2).2
    rwa [show wc2.id = cId from hwcid] at h
  have haIds2 : aId ∈ idsOf s2 := by
    rw [hs2def, connectPieces_idsOf, hs1bdef, mergeGroups_idsOf, hs1def,
      connectPieces_idsOf, ← hpaid]
    exact List.mem_map_of_mem (fun r => r.id) hpa
  obtain ⟨a2, ha2mem, ha2id⟩ := List.mem_map.mp haIds2
  have haconn : a2.id ∈ wb2.connectedPieces := by
    rw [hwb2def]
    show a2.id ∈ addId wb.connectedPieces cId
    refine mem_addId.mpr (Or.inl ?_)
    rw [← List.mem_toFinset, hwbconn, Finset.mem_erase, ha2id]
    exact ⟨hab, List.mem_toFinset.mpr haM1⟩
  have ha2group : a2 ∈ getAllPiecesInGroup s2 wb2 :=
    (group_start_mem_closed s2 wb2 hnd2 hwb2mem).2.2 wb2
      (start_mem_group s2 wb2) a2 ha2mem haconn
  have haM2 : aId ∈ mergedIds s2 wb2 wc2 := by
    rw [mem_mergedIds, ← ha2id]
    exact List.mem_map_of_mem (fun r => r.id) (List.mem_append_left _ ha2group)
  have hndF : (idsOf (mergeGroups s2 wb2 wc2)).Nodup := by
    rw [mergeGroups_idsOf]
    exact hnd2
  have hM2 := mergeGroups_clique s2 wb2 wc2 hnd2 hwb2mem hwc2mem
  rw [hfinal] at hqa hqb hqc
  have key : ∀ q : PuzzlePiece, q ∈ mergeGroups s2 wb2 wc2 →
      ∀ i, q.id = i → i ∈ mergedIds s2 wb2 wc2 →
      groupIds (mergeGroups s2 wb2 wc2) q = (mergedIds s2 wb2 wc2).toFinset := by
    intro q hq i hqi hiM
    obtain ⟨w, hwmem, hwid, hwconn⟩ := hM2 i (List.mem_toFinset.mpr hiM)
    have hqw : q = w := eq_of_mem_of_id_eq hndF hq hwmem (hqi.trans hwid.symm)
    refine (group_clique (mergeGroups s2 wb2 wc2) q
      ((mergedIds s2 wb2 wc2).toFinset) hndF hM2 hq ?_ ?_).1
    · rw [hqi]
      exact List.mem_toFinset.mpr hiM
    · rw [hqw, hwconn, hwid]
  have hga := key qa hqa aId hqaid haM2
  have hgb := key qb hqb bId hqbid hbM2
  have hgc := key qc hqc cId hqcid hcM2
  rw [hfinal]
  exact ⟨hga.trans hgb.symm, hgb.trans hgc.symm⟩

/-- Concrete instance of connect_transitivity on the three piece board. -/
theorem connect_transitivity_witness :
    ((idsOf demoTrio).Nodup
        ∧ samplePiece 0 0 0 true false 0 0 [] [1, 2] 0 ∈ connectTwice demoTrio 0 1 2
        ∧ samplePiece 1 10 0 true false 10 0 [] [0, 2] 0 ∈ connectTwice demoTrio 0 1 2
        ∧ samplePiece 2 20 0 true false 20 0 [] [1, 0] 0 ∈ connectTwice demoTrio 0 1 2)
      ∧ (groupIds (connectTwice demoTrio 0 1 2)
            (samplePiece 0 0 0 true false 0 0 [] [1, 2] 0)
          = groupIds (connectTwice demoTrio 0 1 2)
            (samplePiece 1 10 0 true false 10 0 [] [0, 2] 0)
        ∧ groupIds (connectTwice demoTrio 0 1 2)
            (samplePiece 1 10 0 true false 10 0 [] [0, 2] 0)
          = groupIds (connectTwice demoTrio 0 1 2)
            (samplePiece 2 20 0 true false 20 0 [] [1, 0] 0)) :=
  ⟨⟨by decide, by decide, by decide, by decide⟩,
    connect_transitivity demoTrio 0 1 2
      (samplePiece 0 0 0 true false 0 0 [] [] 0)
      (samplePiece 1 10 0 true false 10 0 [] [] 0)
      (samplePiece 2 20 0 true false 20 0 [] [] 0)
      (samplePiece 0 0 0 true false 0 0 [] [1, 2] 0)
      (samplePiece 1 10 0 true false 10 0 [] [0, 2] 0)
      (samplePiece 2 20 0 true false 20 0 [] [1, 0] 0)
      (by decide) (by decide) (by decide) (by decide) (by decide) (by decide)
      (by decide) (by decide) (by decide) (by decide) (by decide) (by decide)
      (by decide) (by decide) (by decide) (by decide)⟩

/-- Sum of a constant minus a function over a list of pieces. -/
theorem sum_map_const_sub (A : ℚ) (f : PuzzlePiece → ℚ) (l : List PuzzlePiece) :
    (l.map (fun p => A - f p)).sum = l.length * A - (l.map f).sum := by
  induction l with
  | nil => simp
  | cons a t ih =>
    simp only [List.map_cons, List.sum_cons, ih, List.length_cons]
    push_cast
    ring

/-- Sum of a constant plus a function over a list of pieces. -/
theorem sum_map_const_add (A : ℚ) (f : PuzzlePiece → ℚ) (l : List PuzzlePiece) :
    (l.map (fun p => A + f p)).sum = l.length * A + (l.map f).sum := by
  induction l with
  | nil => simp
  | cons a t ih =>
    simp only [List.map_cons, List.sum_cons, ih, List.length_cons]
    push_cast
    ring

/-- The x center sum of a nonempty group in terms of its centroid. -/
theorem sum_centers_x (g : List PuzzlePiece) (hg : g ≠ []) :
    (g.map (fun p => p.x + p.width / 2)).sum = g.length * groupCenterX g := by
  have hn : ((g.length : ℚ)) ≠ 0 :=
    Nat.cast_ne_zero.mpr (fun h => hg (List.length_eq_zero.mp h))
  unfold groupCenterX
  rw [mul_comm, div_mul_cancel₀ _ hn]

/-- The y center sum of a nonempty group in terms of its centroid. -/
theorem sum_centers_y (g : List PuzzlePiece) (hg : g ≠ []) :
    (g.map (fun p => p.y + p.height / 2)).sum = g.length * groupCenterY g := by
  have hn : ((g.length : ℚ)) ≠ 0 :=
    Nat.cast_ne_zero.mpr (fun h => hg (List.length_eq_zero.mp h))
  unfold groupCenterY
  rw [mul_comm, div_mul_cancel₀ _ hn]

/-- Center sums characterize the centroid of a nonempty group. -/
theorem groupCenter_eq_of_sum (g : List PuzzlePiece) (cX cY : ℚ) (hg : g ≠ [])
    (hx : (g.map (fun p => p.x + p.width / 2)).sum = g.length * cX)
    (hy : (g.map (fun p => p.y + p.height / 2)).sum = g.length * cY) :
    groupCenterX g = cX ∧ groupCenterY g = cY := by
  have hn : ((g.length : ℚ)) ≠ 0 :=
    Nat.cast_ne_zero.mpr (fun h => hg (List.length_eq_zero.mp h))
  constructor
  · unfold groupCenterX
    rw [hx, mul_comm, mul_div_assoc, div_self hn, mul_one]
  · unfold groupCenterY
    rw [hy, mul_comm, mul_div_assoc, div_self hn, mul_one]

/-- stepF about the centroid preserves the center sums of the group. -/
theorem sums_map_stepF (g : List PuzzlePiece) (cX cY : ℚ)
    (hx : (g.map (fun p => p.x + p.width / 2)).sum = g.length * cX)
    (hy : (g.map (fun p => p.y + p.height / 2)).sum = g.length * cY) :
    ((g.map (stepF cX cY)).map (fun p => p.x + p.width / 2)).sum
        = (g.map (stepF cX cY)).length * cX
      ∧ ((g.map (stepF cX cY)).map (fun p => p.y + p.height / 2)).sum
        = (g.map (stepF cX cY)).length * cY := by
  constructor
  · rw [List.map_map, List.length_map]
    have he : ((fun p : PuzzlePiece => p.x + p.width / 2) ∘ stepF cX cY)
        = fun p : PuzzlePiece => (cX + cY) - (p.y + p.height / 2) := by
      funext p
      simp only [Function.comp_apply, stepF]
      ring
    rw [he, sum_map_const_sub, hy]
    ring
  · rw [List.map_map, List.length_map]
    have he : ((fun p : PuzzlePiece => p.y + p.height / 2) ∘ stepF cX cY)
        = fun p : PuzzlePiece => (cY - cX) + (p.x + p.width / 2) := by
      funext p
      simp only [Function.comp_apply, stepF]
      ring
    rw [he, sum_map_const_add, hx]
    ring

/-- On an all-face-up nonempty group, rotateGroup is the pointwise stepF
about the centroid. -/
theorem rotateGroup_faceup_map (g : List PuzzlePiece)
    (hg : g ≠ []) (hall : ∀ p ∈ g, p.faceUp = true) :
    rotateGroup g = g.map (stepF (groupCenterX g) (groupCenterY g)) := by
  unfold rotateGroup
  rw [if_neg (by simpa using hg)]
  refine List.map_congr_left ?_
  intro p hp
  have hf := hall p hp
  simp [stepF, PuzzlePiece.rotate90, PuzzlePiece.flip, hf]

/-- Four pointwise steps about a fixed centroid restore the piece, with the
rotation reduced modulo 360. -/
theorem stepF_four (cX cY : ℚ) (p : PuzzlePiece) :
    stepF cX cY (stepF cX cY (stepF cX cY (stepF cX cY p)))
      = { p with rotation := p.rotation % 360 } := by
  simp only [stepF, PuzzlePiece.mk.injEq, and_true, true_and]
  refine ⟨by ring, by ring, by omega⟩

/-- Four group rotations on a single face-down piece leave its rotation at
270 degrees instead of its original 0: the first application flips the
piece face-up instead of rotating its orientation, so the orientation only
accumulates three of the four 90 degree increments. -/
theorem rotateGroup_facedown_counterexample :
    (rotateGroup (rotateGroup (rotateGroup (rotateGroup [demoFaceDown])))).map
        (fun p => p.rotation % 360) = [270]
      ∧ demoFaceDown.rotation % 360 = 0 := by
  constructor
  · decide
  · decide

/-- C8: corrected form.  The original claim fails for face-down members,
which are flipped instead of rotated on the first application (see the
counterexample above).  For a nonempty group whose members are all face-up,
four applications of rotateGroup restore every member exactly - same id,
position, size, face and connection data - except that the stored rotation
comes back reduced modulo 360, hence equal to the original value modulo
360. -/
theorem rotation_closure_faceup (g : List PuzzlePiece) (hg : g ≠ [])
    (hall : ∀ p ∈ g, p.faceUp = true) :
    rotateGroup (rotateGroup (rotateGroup (rotateGroup g)))
      = g.map (fun p => { p with rotation := p.rotation % 360 }) := by
  set cX := groupCenterX g with hcX
  set cY := groupCenterY g with hcY
  have hsx : (g.map (fun p => p.x + p.width / 2)).sum = g.length * cX :=
    sum_centers_x g hg
  have hsy : (g.map (fun p => p.y + p.height / 2)).sum = g.length * cY :=
    sum_centers_y g hg
  have step : ∀ l : List PuzzlePiece, l ≠ [] → (∀ p ∈ l, p.faceUp = true) →
      (l.map (fun p => p.x + p.width / 2)).sum = l.length * cX →
      (l.map (fun p => p.y + p.height / 2)).sum = l.length * cY →
      rotateGroup l = l.map (stepF cX cY)
        ∧ l.map (stepF cX cY) ≠ []
        ∧ (∀ p ∈ l.map (stepF cX cY), p.faceUp = true)
        ∧ ((l.map (stepF cX cY)).map (fun p => p.x + p.width / 2)).sum
            = (l.map (stepF cX cY)).length * cX
        ∧ ((l.map (stepF cX cY)).map (fun p => p.y + p.height / 2)).sum
            = (l.map (stepF cX cY)).length * cY := by
    intro l hl hfu hx hy
    have hc := groupCenter_eq_of_sum l cX cY hl hx hy
    refine ⟨?_, ?_, ?_, (sums_map_stepF l cX cY hx hy).1,
      (sums_map_stepF l cX cY hx hy).2⟩
    · rw [rotateGroup_faceup_map l hl hfu, hc.1, hc.2]
    · simpa using hl
    · intro p hp
      obtain ⟨q, hq, rfl⟩ := List.mem_map.mp hp
      simpa [stepF] using hfu q hq
  obtain ⟨h1, hne1, hfu1, hx1, hy1⟩ := step g hg hall hsx hsy
  obtain ⟨h2, hne2, hfu2, hx2, hy2⟩ := step _ hne1 hfu1 hx1 hy1
  obtain ⟨h3, hne3, hfu3, hx3, hy3⟩ := step _ hne2 hfu2 hx2 hy2
  obtain ⟨h4, h5, h6, h7, h8⟩ := step _ hne3 hfu3 hx3 hy3
  rw [h1, h2, h3, h4, List.map_map, List.map_map, List.map_map]
  refine List.map_congr_left ?_
  intro p hp
  simp only [Function.comp_apply]
  exact stepF_four cX cY p

/-- Concrete instance of rotation_closure_faceup on the three piece board. -/
theorem rotation_closure_faceup_witness :
    (demoTrio ≠ [] ∧ ∀ p ∈ demoTrio, p.faceUp = true)
      ∧ rotateGroup (rotateGroup (rotateGroup (rotateGroup demoTrio)))
        = demoTrio.map (fun p => { p with rotation := p.rotation % 360 }) :=
  ⟨⟨by decide, by decide⟩,
    rotation_closure_faceup demoTrio (by decide) (by decide)⟩

/-- A locked piece that shares a group with the dragged piece is translated
by the drag handler: piece 1 of demoPieces is locked at x = 100, yet
dragging its group mate piece 0 to x = 50 moves piece 1 to x = 150.  The
group translation of handlePointerMove never consults isLocked. -/
theorem handleDragMove_locked_counterexample :
    demoB.isLocked = true
      ∧ demoB.x = 100
      ∧ (handleDragMove demoPieces demoA 50 0).map (fun p => (p.id, p.x))
        = [(0, 50), (1, 150)] := by
  have hg : getAllPiecesInGroup demoPieces demoA = [demoA, demoB] := by decide
  refine ⟨by decide, by norm_num [demoB, samplePiece], ?_⟩
  simp only [handleDragMove, hg]
  norm_num [demoPieces, demoA, demoB, samplePiece]

/-- C6: corrected form.  The original claim fails: the rigid group
translations of handlePointerMove and of the snap branch of handlePointerUp
never consult isLocked, so a locked piece that shares a group with an
unlocked piece is moved with the group (see the counterexample above).
What does hold: hit-testing on pointer-down only returns unlocked pieces,
and a locked piece whose id lies outside the dragged group (and is not the
selected piece) is left entirely unchanged by both the drag translation and
the snap translation. -/
theorem locked_piece_protection (pieces : List PuzzlePiece)
    (selectedPiece : PuzzlePiece) (draggedGroup : List PuzzlePiece)
    (wx wy sx sy gx gy : ℚ) (q : PuzzlePiece)
    (hnd : (idsOf pieces).Nodup)
    (hq : q ∈ pieces) (hlocked : q.isLocked = true)
    (hout1 : q.id ≠ selectedPiece.id)
    (hout2 : ∀ r ∈ getAllPiecesInGroup pieces selectedPiece, r.id ≠ q.id)
    (hout3 : ∀ r ∈ draggedGroup, r.id ≠ q.id) :
    (∀ p ∈ hitCandidates pieces wx wy, p.isLocked = false)
      ∧ q ∈ handleDragMove pieces selectedPiece wx wy
      ∧ (∀ r ∈ handleDragMove pieces selectedPiece wx wy, r.id = q.id → r = q)
      ∧ q ∈ applySnap pieces draggedGroup sx sy gx gy
      ∧ (∀ r ∈ applySnap pieces draggedGroup sx sy gx gy, r.id = q.id → r = q) := by
  have hany : ((getAllPiecesInGroup pieces selectedPiece).any
      (fun g => g.id == q.id)) = false := by
    rw [List.any_eq_false]
    intro r hr
    simpa using hout2 r hr
  have hany3 : (draggedGroup.any (fun g => g.id == q.id)) = false := by
    rw [List.any_eq_false]
    intro r hr
    simpa using hout3 r hr
  refine ⟨?_, ?_, ?_, ?_, ?_⟩
  · intro p hp
    unfold hitCandidates at hp
    have hcond := List.of_mem_filter hp
    cases hpl : p.isLocked
    · rfl
    · rw [hpl] at hcond
      simp at hcond
  · simp only [handleDragMove]
    refine List.mem_map.mpr ⟨q, hq, ?_⟩
    rw [if_neg hout1, if_neg (by simp [hany])]
  · intro r hr hid
    simp only [handleDragMove] at hr
    obtain ⟨p, hp, hpr⟩ := List.mem_map.mp hr
    have hpid : p.id = q.id := by
      by_cases h1 : p.id = selectedPiece.id
      · rw [if_pos h1] at hpr
        rw [← hid, ← hpr]
      · rw [if_neg h1] at hpr
        by_cases h2 : ((getAllPiecesInGroup pieces selectedPiece).any
            (fun g => g.id == p.id)) = true
        · rw [if_pos h2] at hpr
          rw [← hid, ← hpr]
        · rw [if_neg h2] at hpr
          rw [← hid, ← hpr]
    have hpq : p = q := eq_of_mem_of_id_eq hnd hp hq hpid
    subst hpq
    rw [if_neg hout1, if_neg (by simp [hany])] at hpr
    exact hpr.symm
  · simp only [applySnap]
    refine List.mem_map.mpr ⟨q, hq, ?_⟩
    rw [if_neg (by simp [hany3])]
  · intro r hr hid
    simp only [applySnap] at hr
    obtain ⟨p, hp, hpr⟩ := List.mem_map.mp hr
    have hpid : p.id = q.id := by
      by_cases h2 : (draggedGroup.any (fun g => g.id == p.id)) = true
      · rw [if_pos h2] at hpr
        rw [← hid, ← hpr]
      · rw [if_neg h2] at hpr
        rw [← hid, ← hpr]
    have hpq : p = q := eq_of_mem_of_id_eq hnd hp hq hpid
    subst hpq
    rw [if_neg (by simp [hany3])] at hpr
    exact hpr.symm

/-- Concrete instance of locked_piece_protection: the far-away locked piece
of the two piece board is untouched by a drag of the free piece and by a
snap of its singleton group. -/
theorem locked_piece_protection_witness :
    ((idsOf demoPieces2).Nodup
        ∧ demoLockedFar ∈ demoPieces2
        ∧ demoLockedFar.isLocked = true
        ∧ demoLockedFar.id ≠ demoFree.id
        ∧ (∀ r ∈ getAllPiecesInGroup demoPieces2 demoFree, r.id ≠ demoLockedFar.id)
        ∧ (∀ r ∈ [demoFree], r.id ≠ demoLockedFar.id))
      ∧ ((∀ p ∈ hitCandidates demoPieces2 50 0, p.isLocked = false)
        ∧ demoLockedFar ∈ handleDragMove demoPieces2 demoFree 50 0
        ∧ (∀ r ∈ handleDragMove demoPieces2 demoFree 50 0,
            r.id = demoLockedFar.id → r = demoLockedFar)
        ∧ demoLockedFar ∈ applySnap demoPieces2 [demoFree] 5 5 0 0
        ∧ (∀ r ∈ applySnap demoPieces2 [demoFree] 5 5 0 0,
            r.id = demoLockedFar.id → r = demoLockedFar)) :=
  ⟨⟨by decide, by decide, by decide, by decide, by decide, by decide⟩,
    locked_piece_protection demoPieces2 demoFree [demoFree] 50 0 5 5 0 0
      demoLockedFar (by decide) (by decide) (by decide) (by decide)
      (by decide) (by decide)⟩
